import Mathlib

/-!
The 8-puzzle engine of `src/app/components/PuzzleGame.js`.

A shallow embedding of the puzzle logic (solvability check, generator,
solved detection, move validation) and of the session held by the component
(the click, drag, drop, key and restart handlers, the solved-check effect and
the lock-release timers), followed by the verification of its specification.

A board is a JavaScript array of rows of numbers; it is embedded as a list
of lists of integers.  Where the identity of the row objects matters (the copy
made before the swap), the rows live in a store and a board is the list of
their addresses.  Reading a row that does not exist and then indexing
it raises a `TypeError` in the source, which the embedding records in the
`Except` result of the operations that index the board.
-/

/-- A board: the array of rows held in the `puzzle` state variable. -/
abbrev Board := List (List Int)

/-- A `{ row, col }` object as built by `findEmptyTile`. -/
structure Pos where
  row : Nat
  col : Nat
deriving DecidableEq, Repr

/-- Abnormal outcomes of the embedded operations. -/
inductive JsError where
  /-- The source raises a `TypeError` (a property of `undefined` or `null` is read or written). -/
  | typeError
  /-- The source would store `undefined` in a row or write past the end of a row; such
  arrays are not values of `Board`. -/
  | outsideModel
deriving DecidableEq, Repr

/-- The `dragging` state variable: `{ row, col, value }`. -/
structure Dragging where
  row : Nat
  col : Nat
  value : Int
deriving DecidableEq, Repr

/-- The React state of the `PuzzleGame` component, together with the number of
`setTimeout` callbacks that were scheduled and have not fired yet. -/
structure GameState where
  puzzle : Board
  moves : Nat
  solved : Bool
  animating : Bool
  dragging : Option Dragging
  dragOver : Option Pos
  timers : Nat
deriving DecidableEq, Repr

/-- The canonical solved board. -/
def solvedBoard : Board := [[1, 2, 3], [4, 5, 6], [7, 8, 0]]

/-- The two nested `for` loops of `isSolvable` (lines 11-17): for every `i` and every
`j` from `i + 1` up, `inversions` is incremented when `flatPuzzle[i] > flatPuzzle[j]`. -/
def countInversions (flatPuzzle : List Int) : Nat :=
  (List.range flatPuzzle.length).foldl
    (fun inversions i =>
      (List.range' (i + 1) (flatPuzzle.length - (i + 1))).foldl
        (fun inversions j =>
          if flatPuzzle.getD i 0 > flatPuzzle.getD j 0 then inversions + 1 else inversions)
        inversions)
    0

/-- The function `isSolvable` (lines 7-21). -/
def isSolvable (puzzle : Board) : Bool :=
  let flatPuzzle := puzzle.flatten.filter (fun num => num != 0)
  countInversions flatPuzzle % 2 == 0

/-- The destructuring swap `[numbers[i], numbers[j]] = [numbers[j], numbers[i]]`
(line 31): both reads happen first, then `numbers[i]` and `numbers[j]` are written. -/
def swapAt (numbers : List Int) (i j : Nat) : List Int :=
  (numbers.set i (numbers.getD j 0)).set j (numbers.getD i 0)

/-- The Fisher-Yates loop (lines 29-32): `i` runs from `numbers.length - 1` down to `1`;
`draw k` is the value of `Math.floor(Math.random() * (i + 1))` in the `k`-th iteration
(counted from `0`), that is for `i = numbers.length - 1 - k`. -/
def shuffle (draw : Nat → Nat) (numbers : List Int) : List Int :=
  (List.range (numbers.length - 1)).foldl
    (fun nums k => swapAt nums (numbers.length - 1 - k) (draw k))
    numbers

/-- The call `numbers.slice(a, b)`. -/
def sliceOf (numbers : List Int) (a b : Nat) : List Int :=
  (numbers.drop a).take (b - a)

/-- One pass through the body of the `do ... while` loop of `generatePuzzle`
(lines 27-37), the pass number `attempt` (from `0`); the pass consumes the draws
`8 * attempt, ..., 8 * attempt + 7` of the stream `draws`. -/
def generateAttempt (draws : Nat → Nat) (attempt : Nat) : Board :=
  let numbers := shuffle (fun k => draws (8 * attempt + k)) [1, 2, 3, 4, 5, 6, 7, 8, 0]
  [sliceOf numbers 0 3, sliceOf numbers 3 6, sliceOf numbers 6 9]

/-- The `do ... while (!isSolvable(puzzle))` loop of `generatePuzzle`, run for at most
`fuel` passes starting with pass number `attempt`. -/
def generatePuzzleLoop (draws : Nat → Nat) : Nat → Nat → Option Board
  | 0, _ => none
  | fuel + 1, attempt =>
    let puzzle := generateAttempt draws attempt
    if isSolvable puzzle then some puzzle else generatePuzzleLoop draws fuel (attempt + 1)

/-- The function `generatePuzzle` (lines 24-41) on the stream `draws` of random indices,
`none` when no pass among the first `fuel` ones produces a solvable board. -/
def generatePuzzle (draws : Nat → Nat) (fuel : Nat) : Option Board :=
  generatePuzzleLoop draws fuel 0

/-- The draws a run of `generatePuzzle` can see: `Math.random()` lies in `[0, 1)`, so the
index drawn for `i` lies in `[0, i]`; the `k`-th draw of a pass is the one for `i = 8 - k`. -/
def ValidDraws (draws : Nat → Nat) : Prop :=
  ∀ attempt k, k < 8 → draws (8 * attempt + k) ≤ 8 - k

/-- The function `isPuzzleSolved` (lines 44-48): every expected value equals the element
of the flattened board at its index (`flat[idx]` is `undefined` past the end). -/
def isPuzzleSolved (puzzle : Board) : Bool :=
  let expected : List Int := [1, 2, 3, 4, 5, 6, 7, 8, 0]
  let flat := puzzle.flatten
  expected.enum.all (fun p => flat[p.1]? == some p.2)

/-- The read `puzzle[row][col]`: a `TypeError` when `puzzle[row]` is `undefined`,
and `none` (for `undefined`) when the row has no element at `col`. -/
def readCell (puzzle : Board) (row col : Nat) : Except JsError (Option Int) :=
  match puzzle[row]? with
  | none => .error .typeError
  | some r => .ok r[col]?

/-- The write `puzzle[row][col] = v`. -/
def writeCell (puzzle : Board) (row col : Nat) (v : Option Int) : Except JsError Board :=
  match puzzle[row]?, v with
  | none, _ => .error .typeError
  | some _, none => .error .outsideModel
  | some r, some x =>
    if col < r.length then .ok (puzzle.set row (r.set col x)) else .error .outsideModel

/-- The scan of `findEmptyTile` over the remaining positions, in loop order. -/
def findEmptyTileFrom (puzzle : Board) : List (Nat × Nat) → Except JsError (Option Pos)
  | [] => .ok none
  | (row, col) :: rest =>
    match readCell puzzle row col with
    | .error e => .error e
    | .ok cell => if cell = some 0 then .ok (some ⟨row, col⟩) else findEmptyTileFrom puzzle rest

/-- The positions visited by the loops `for row in 0..2`, `for col in 0..2`. -/
def scanOrder : List (Nat × Nat) :=
  (List.range 3).flatMap (fun row => (List.range 3).map (fun col => (row, col)))

/-- The function `findEmptyTile` (lines 51-60); `none` is the result `null`. -/
def findEmptyTile (puzzle : Board) : Except JsError (Option Pos) :=
  findEmptyTileFrom puzzle scanOrder

/-- The adjacency test of `canMove` (lines 68-71). -/
def adjacent (row col : Nat) (empty : Pos) : Bool :=
  (((row : Int) - (empty.row : Int)).natAbs == 1 && col == empty.col) ||
  (((col : Int) - (empty.col : Int)).natAbs == 1 && row == empty.row)

/-- The function `canMove` (lines 63-72). -/
def canMove (puzzle : Board) (row col : Nat) : Except JsError Bool :=
  match findEmptyTile puzzle with
  | .error e => .error e
  | .ok none => .ok false
  | .ok (some empty) => .ok (adjacent row col empty)

/-- The board built by the accepted branch of `handleTileClick` (lines 95-100): the blank is
located, the rows are copied, and the cells at `(row, col)` and at the blank are exchanged
by a destructuring assignment (both reads first, then the two writes in order). -/
def swapWithEmpty (puzzle : Board) (row col : Nat) : Except JsError Board :=
  match findEmptyTile puzzle with
  | .error e => .error e
  | .ok none => .error .typeError
  | .ok (some empty) =>
    let newPuzzle := puzzle.map (fun r => r)
    match readCell newPuzzle empty.row empty.col, readCell newPuzzle row col with
    | .error e, _ => .error e
    | .ok _, .error e => .error e
    | .ok fromEmpty, .ok fromTile =>
      match writeCell newPuzzle row col fromEmpty with
      | .error e => .error e
      | .ok newPuzzle => writeCell newPuzzle empty.row empty.col fromTile

/-- The callback `handleTileClick` (lines 90-108).  The result `none` means the handler
returned without calling a state setter; `some s` is the state after the setters
`setAnimating(true)`, `setPuzzle(newPuzzle)`, `setMoves(m => m + 1)` and with one more
pending `setTimeout` callback. -/
def handleTileClick (s : GameState) (row col : Nat) : Except JsError (Option GameState) :=
  if s.solved || s.animating then .ok none
  else
    match readCell s.puzzle row col with
    | .error e => .error e
    | .ok cell =>
      if cell = some 0 then .ok none
      else
        match canMove s.puzzle row col with
        | .error e => .error e
        | .ok false => .ok none
        | .ok true =>
          match swapWithEmpty s.puzzle row col with
          | .error e => .error e
          | .ok newPuzzle =>
            .ok (some { s with
              animating := true, puzzle := newPuzzle, moves := s.moves + 1,
              timers := s.timers + 1 })

/-- The solved-check effect (lines 83-87), run after a render in which `puzzle` changed. -/
def solvedEffect (s : GameState) : GameState :=
  if isPuzzleSolved s.puzzle then { s with solved := true } else s

/-- A tile click as the component processes it: the handler runs, and when it replaced
`puzzle` the component re-renders and the solved-check effect runs. -/
def tileClick (s : GameState) (row col : Nat) : Except JsError GameState :=
  match handleTileClick s row col with
  | .error e => .error e
  | .ok none => .ok s
  | .ok (some s1) => .ok (solvedEffect s1)

/-- A well-formed board: 3 rows of 3 cells holding each of `0, ..., 8` once. -/
def WellFormed (board : Board) : Prop :=
  board.length = 3 ∧ (∀ r ∈ board, r.length = 3) ∧
    board.flatten.Perm [0, 1, 2, 3, 4, 5, 6, 7, 8]

instance instDecidableWellFormed (board : Board) : Decidable (WellFormed board) :=
  inferInstanceAs (Decidable (_ ∧ _ ∧ _))

/-- The set of inversions of a sequence as the specification words it: the pairs of
indices `i < j` with `value[i] > value[j]`. -/
def inversionPairs (value : List Int) : Finset (Nat × Nat) :=
  (Finset.range value.length ×ˢ Finset.range value.length).filter
    (fun p => p.1 < p.2 ∧ value.getD p.1 0 > value.getD p.2 0)

/-- Inversions counted head first: each element against the elements after it. -/
def invCount : List Int → Nat
  | [] => 0
  | x :: l => l.countP (fun y => decide (x > y)) + invCount l

/-- The contribution of index `i` to `countInversions`. -/
def laterSmaller (l : List Int) (i : Nat) : Nat :=
  (List.range' (i + 1) (l.length - (i + 1))).countP
    (fun j => decide (l.getD i 0 > l.getD j 0))


instance instDecidableEqExceptJs {α : Type} [DecidableEq α] : DecidableEq (Except JsError α)
  | .ok a, .ok b =>
    if h : a = b then isTrue (congrArg Except.ok h)
    else isFalse (fun h2 => h (Except.ok.inj h2))
  | .error a, .error b =>
    if h : a = b then isTrue (congrArg Except.error h)
    else isFalse (fun h2 => h (Except.error.inj h2))
  | .ok _, .error _ => isFalse (fun h => Except.noConfusion h)
  | .error _, .ok _ => isFalse (fun h => Except.noConfusion h)

/-- A legal move as the specification words it: the blank is swapped with a position of the
grid for which `canMove` is true, by the swap of `handleTileClick`. -/
def LegalMove (board next : Board) : Prop :=
  ∃ row col, row < 3 ∧ col < 3 ∧ canMove board row col = .ok true ∧
    swapWithEmpty board row col = .ok next

/-- The board with the given row-major flattening. -/
def ofFlat (l : List Int) : Board :=
  [sliceOf l 0 3, sliceOf l 3 6, sliceOf l 6 9]

/-- Adjacency of two cells given by their row-major indices. -/
def adjacentIdx (p q : Nat) : Bool :=
  adjacent (p / 3) (p % 3) ⟨q / 3, q % 3⟩

/-- A sequence of clicked cells (row-major indices) each adjacent to the blank, which starts
at `q` and follows the clicks. -/
def validPath : Nat → List Nat → Bool
  | _, [] => true
  | q, p :: rest => decide (p < 9) && adjacentIdx p q && validPath p rest

/-- The flattening after the clicks of a path: each click exchanges the clicked cell with
the blank. -/
def slidePath : List Int → Nat → List Nat → List Int
  | l, _, [] => l
  | l, q, p :: rest => slidePath (swapAt l p q) p rest

/-- The keys `handleKeyDown` tells apart (`e.key`); `other` is any key of the `default` case. -/
inductive Key where
  | arrowUp
  | arrowDown
  | arrowLeft
  | arrowRight
  | other
deriving DecidableEq, Repr

/-- The destructuring swap
`[newPuzzle[r1][c1], newPuzzle[r2][c2]] = [newPuzzle[r2][c2], newPuzzle[r1][c1]]` of
`handleDrop` (lines 154-158) on a copy of the rows: both reads first, then the two writes
in order. -/
def swapCells (puzzle : Board) (r1 c1 r2 c2 : Nat) : Except JsError Board :=
  let newPuzzle := puzzle.map (fun r => r)
  match readCell newPuzzle r2 c2, readCell newPuzzle r1 c1 with
  | .error e, _ => .error e
  | .ok _, .error e => .error e
  | .ok second, .ok first =>
    match writeCell newPuzzle r1 c1 second with
    | .error e => .error e
    | .ok newPuzzle => writeCell newPuzzle r2 c2 first

/-- The callback `handleDragStart` (lines 111-125); `none` means that the drag was refused
and no setter was called, `some s` is the state after `setDragging`. -/
def handleDragStart (s : GameState) (row col : Nat) : Except JsError (Option GameState) :=
  if s.solved || s.animating then .ok none
  else
    match readCell s.puzzle row col with
    | .error e => .error e
    | .ok cell =>
      if cell = some 0 then .ok none
      else
        match canMove s.puzzle row col with
        | .error e => .error e
        | .ok false => .ok none
        | .ok true =>
          match cell with
          | none => .error .outsideModel
          | some value => .ok (some { s with dragging := some ⟨row, col, value⟩ })

/-- The callback `handleDragOver` (lines 127-137). -/
def handleDragOver (s : GameState) (row col : Nat) : Except JsError (Option GameState) :=
  match readCell s.puzzle row col with
  | .error e => .error e
  | .ok cell =>
    if cell = some 0 ∧ s.dragging.isSome = true then
      .ok (some { s with dragOver := some ⟨row, col⟩ })
    else .ok none

/-- The callback `handleDragLeave` (lines 139-141). -/
def handleDragLeave (s : GameState) : GameState :=
  { s with dragOver := none }

/-- The callback `handleDrop` (lines 143-167).  The boolean tells whether `setPuzzle` was
called, that is whether the solved-check effect runs after the render. -/
def handleDrop (s : GameState) (row col : Nat) : Except JsError (GameState × Bool) :=
  match s.dragging with
  | none => .ok ({ s with dragOver := none }, false)
  | some d =>
    match readCell s.puzzle row col with
    | .error e => .error e
    | .ok cell =>
      if cell ≠ some 0 then .ok ({ s with dragOver := none }, false)
      else
        match canMove s.puzzle d.row d.col with
        | .error e => .error e
        | .ok false => .ok ({ s with dragOver := none, dragging := none }, false)
        | .ok true =>
          match swapCells s.puzzle d.row d.col row col with
          | .error e => .error e
          | .ok newPuzzle =>
            .ok ({ s with
              dragOver := none, animating := true, puzzle := newPuzzle,
              moves := s.moves + 1, timers := s.timers + 1, dragging := none }, true)

/-- The callback `handleDragEnd` (lines 169-172). -/
def handleDragEnd (s : GameState) : GameState :=
  { s with dragging := none, dragOver := none }

/-- The target `(targetRow, targetCol)` computed by the `switch` of `handleKeyDown`
(lines 182-200); `none` for the `default` case. -/
def keyTarget (empty : Pos) : Key → Option (Int × Int)
  | .arrowUp => some ((empty.row : Int) + 1, (empty.col : Int))
  | .arrowDown => some ((empty.row : Int) - 1, (empty.col : Int))
  | .arrowLeft => some ((empty.row : Int), (empty.col : Int) + 1)
  | .arrowRight => some ((empty.row : Int), (empty.col : Int) - 1)
  | .other => none

/-- The listener `handleKeyDown` (lines 176-206); results as for `handleTileClick`. -/
def handleKeyDown (s : GameState) (key : Key) : Except JsError (Option GameState) :=
  if s.solved || s.animating then .ok none
  else
    match findEmptyTile s.puzzle with
    | .error e => .error e
    | .ok none => .ok none
    | .ok (some empty) =>
      match keyTarget empty key with
      | none => .ok none
      | some (targetRow, targetCol) =>
        if targetRow ≥ 0 ∧ targetRow < 3 ∧ targetCol ≥ 0 ∧ targetCol < 3 then
          handleTileClick s targetRow.toNat targetCol.toNat
        else .ok none

/-- The function `handleRestart` (lines 213-220) on the random draws `draws`; `none` when
`generatePuzzle` does not return within `fuel` passes.  Pending `setTimeout` callbacks are
not cancelled. -/
def handleRestart (s : GameState) (draws : Nat → Nat) (fuel : Nat) : Option GameState :=
  match generatePuzzle draws fuel with
  | none => none
  | some puzzle =>
    some { s with
      puzzle := puzzle, moves := 0, solved := false, animating := false,
      dragging := none, dragOver := none }

/-- The callback `() => setAnimating(false)` of the oldest pending `setTimeout` fires
(lines 106 and 163); `none` when no callback is pending. -/
def releaseLock (s : GameState) : Option GameState :=
  if s.timers = 0 then none
  else some { s with animating := false, timers := s.timers - 1 }

/-- The first render of the component (lines 75-80) followed by the solved-check effect,
which runs after the first render. -/
def mount (draws : Nat → Nat) (fuel : Nat) : Option GameState :=
  match generatePuzzle draws fuel with
  | none => none
  | some puzzle => some (solvedEffect ⟨puzzle, 0, false, false, none, none, 0⟩)

/-- An arrow key or other key press as the component processes it: the listener runs, and
when it replaced `puzzle` the solved-check effect runs. -/
def keyPress (s : GameState) (key : Key) : Except JsError GameState :=
  match handleKeyDown s key with
  | .error e => .error e
  | .ok none => .ok s
  | .ok (some s1) => .ok (solvedEffect s1)

/-- A drop as the component processes it: the handler runs, and when it replaced `puzzle`
the solved-check effect runs. -/
def dropTile (s : GameState) (row col : Nat) : Except JsError GameState :=
  match handleDrop s row col with
  | .error e => .error e
  | .ok (s1, true) => .ok (solvedEffect s1)
  | .ok (s1, false) => .ok s1

/-- A restart as the component processes it: `handleRestart` installs a new `puzzle`, so
the solved-check effect runs after the render. -/
def restart (s : GameState) (draws : Nat → Nat) (fuel : Nat) : Option GameState :=
  (handleRestart s draws fuel).map solvedEffect

/-- The input events of a session. -/
inductive Event where
  | click (row col : Nat)
  | key (k : Key)
  | dragStart (row col : Nat)
  | dragOver (row col : Nat)
  | dragLeave
  | drop (row col : Nat)
  | dragEnd
  | release
  | restart (draws : Nat → Nat) (fuel : Nat)

/-- Events the page can deliver: positions are cells of the 3x3 grid of buttons and the
random draws of a restart are indices in range. -/
def Event.Valid : Event → Prop
  | .click row col => row < 3 ∧ col < 3
  | .dragStart row col => row < 3 ∧ col < 3
  | .dragOver row col => row < 3 ∧ col < 3
  | .drop row col => row < 3 ∧ col < 3
  | .restart draws _ => ValidDraws draws
  | _ => True

/-- The state after one event; `none` when the event does not complete (an exception, a
generator that does not return, a release without pending callback). -/
def step (s : GameState) : Event → Option GameState
  | .click row col => (tileClick s row col).toOption
  | .key k => (keyPress s k).toOption
  | .dragStart row col =>
    match handleDragStart s row col with
    | .error _ => none
    | .ok none => some s
    | .ok (some s1) => some s1
  | .dragOver row col =>
    match handleDragOver s row col with
    | .error _ => none
    | .ok none => some s
    | .ok (some s1) => some s1
  | .dragLeave => some (handleDragLeave s)
  | .drop row col => (dropTile s row col).toOption
  | .dragEnd => some (handleDragEnd s)
  | .release => releaseLock s
  | .restart draws fuel => restart s draws fuel

/-- The state after a sequence of events. -/
def run (s : GameState) : List Event → Option GameState
  | [] => some s
  | e :: rest =>
    match step s e with
    | none => none
    | some s1 => run s1 rest

/-- The states of a session: those reached from a fresh session by deliverable events. -/
def Reachable (s : GameState) : Prop :=
  ∃ draws fuel s0 events, ValidDraws draws ∧ mount draws fuel = some s0 ∧
    (∀ e ∈ events, e.Valid) ∧ run s0 events = some s

/-- The target position of an arrow key as the specification words it, for the blank at
`(r, c)`: `(r+1, c)` for Up, `(r-1, c)` for Down, `(r, c+1)` for Left, `(r, c-1)` for
Right. -/
def arrowTarget (r c : Nat) : Key → Int × Int
  | .arrowUp => ((r : Int) + 1, (c : Int))
  | .arrowDown => ((r : Int) - 1, (c : Int))
  | .arrowLeft => ((r : Int), (c : Int) + 1)
  | .arrowRight => ((r : Int), (c : Int) - 1)
  | .other => ((r : Int), (c : Int))


/-- Random draws whose first pass builds the board `[[1,2,3],[4,5,6],[0,7,8]]`: the indices
`7, 6, 6, 5, 4, 3, 2, 1` for `i = 8, ..., 1`, and `0` in every later pass. -/
def exampleDraws : Nat → Nat := fun n => [7, 6, 6, 5, 4, 3, 2, 1].getD n 0

/-- The well-formed boards: the 3x3 arrangements of the permutations of `0, ..., 8`. -/
def wellFormedBoards : Finset Board :=
  ((List.permutations [0, 1, 2, 3, 4, 5, 6, 7, 8]).map ofFlat).toFinset

/-- The exchange of the values 1 and 2. -/
def swapOneTwo (v : Int) : Int :=
  if v = 1 then 2 else if v = 2 then 1 else v

/-- The board with the tiles 1 and 2 exchanged. -/
def exchangeTiles (board : Board) : Board :=
  board.map (fun r => r.map swapOneTwo)

/-- A draw vector `(j_8, ..., j_1)` of one pass of the shuffle: the entry `k` is the index
drawn in the `k`-th iteration, that is for `i = 8 - k`, and lies in `[0, i]`. -/
abbrev DrawVector := (k : Fin 8) → Fin (9 - k.val)

/-- The draws of a pass as a function of the iteration number. -/
def drawsOf (d : DrawVector) : Nat → Nat :=
  fun k => if h : k < 8 then (d ⟨k, h⟩).val else 0

/-- One pass of the Fisher-Yates loop of `generatePuzzle` as a function of the draw vector. -/
def shuffleOf (d : DrawVector) : List Int :=
  shuffle (drawsOf d) [1, 2, 3, 4, 5, 6, 7, 8, 0]

/-- The iterations `i = n, ..., 1` of the Fisher-Yates loop, the first of them taking the
draw `draw 0`. -/
def shuffleSteps : Nat → (Nat → Nat) → List Int → List Int
  | 0, _, nums => nums
  | n + 1, draw, nums => shuffleSteps n (fun k => draw (k + 1)) (swapAt nums (n + 1) (draw 0))

/-- The store of row arrays: the array object at address `a` has the contents `heap[a]`.
Rows are the only objects the move writes to. -/
abbrev Heap := List (List Int)

/-- A `puzzle` array as the program holds it: the addresses of its row arrays.  Two
`puzzle` arrays that share an address alias the same row. -/
abbrev BoardRef := List Nat

/-- The contents of a `puzzle` array in a store; `none` when an address is not allocated. -/
def deref (heap : Heap) : BoardRef → Option Board
  | [] => some []
  | a :: rest =>
    match heap[a]?, deref heap rest with
    | some r, some b => some (r :: b)
    | _, _ => none

/-- The read `puzzle[row][col]` in a store. -/
def heapReadCell (heap : Heap) (puzzle : BoardRef) (row col : Nat) :
    Except JsError (Option Int) :=
  match puzzle[row]? with
  | none => .error .typeError
  | some a =>
    match heap[a]? with
    | none => .error .typeError
    | some r => .ok r[col]?

/-- The write `puzzle[row][col] = v` in a store: the row object at the address
`puzzle[row]` is updated in place, so the write is seen through every `puzzle` array that
holds this address. -/
def heapWriteCell (heap : Heap) (puzzle : BoardRef) (row col : Nat) (v : Option Int) :
    Except JsError Heap :=
  match puzzle[row]?, v with
  | none, _ => .error .typeError
  | some _, none => .error .outsideModel
  | some a, some x =>
    match heap[a]? with
    | none => .error .typeError
    | some r =>
      if col < r.length then .ok (heap.set a (r.set col x)) else .error .outsideModel

/-- The copy `puzzle.map(row => [...row])` (line 96): every row is copied into a newly
allocated row object, and the result is the array of the new addresses. -/
def copyRows (heap : Heap) (puzzle : BoardRef) : Option (Heap × BoardRef) :=
  match deref heap puzzle with
  | none => none
  | some rows => some (heap ++ rows, List.range' heap.length rows.length)

/-- The accepted branch of `handleTileClick` (lines 95-100) on a store: the blank is located
by reading `puzzle`, the rows are copied, and the destructuring assignment reads and writes
the cells of `newPuzzle`.  The result is the store after the writes and `newPuzzle`. -/
def swapWithEmptyInHeap (heap : Heap) (puzzle : BoardRef) (row col : Nat) :
    Except JsError (Heap × BoardRef) :=
  match deref heap puzzle with
  | none => .error .typeError
  | some board =>
    match findEmptyTile board with
    | .error e => .error e
    | .ok none => .error .typeError
    | .ok (some empty) =>
      match copyRows heap puzzle with
      | none => .error .typeError
      | some (heap1, newPuzzle) =>
        match heapReadCell heap1 newPuzzle empty.row empty.col,
            heapReadCell heap1 newPuzzle row col with
        | .error e, _ => .error e
        | .ok _, .error e => .error e
        | .ok fromEmpty, .ok fromTile =>
          match heapWriteCell heap1 newPuzzle row col fromEmpty with
          | .error e => .error e
          | .ok heap2 =>
            match heapWriteCell heap2 newPuzzle empty.row empty.col fromTile with
            | .error e => .error e
            | .ok heap3 => .ok (heap3, newPuzzle)

/-! ## Inversion counting -/

theorem foldl_ite_succ (c : Nat → Bool) (js : List Nat) (acc : Nat) :
    js.foldl (fun a j => if c j then a + 1 else a) acc = acc + js.countP c := by
  induction js generalizing acc with
  | nil => simp
  | cons j js ih =>
    simp only [List.foldl_cons, ih, List.countP_cons]
    split <;> omega

theorem foldl_add_sum (g : Nat → Nat) (is : List Nat) (acc : Nat) :
    is.foldl (fun a i => a + g i) acc = acc + (is.map g).sum := by
  induction is generalizing acc with
  | nil => simp
  | cons i is ih => simp only [List.foldl_cons, ih, List.map_cons, List.sum_cons]; omega

theorem countInversions_eq_sum (l : List Int) :
    countInversions l = ((List.range l.length).map (laterSmaller l)).sum := by
  unfold countInversions
  have h : ∀ (a i : Nat),
      (List.range' (i + 1) (l.length - (i + 1))).foldl
        (fun inversions j =>
          if l.getD i 0 > l.getD j 0 then inversions + 1 else inversions) a
        = a + laterSmaller l i := by
    intro a i
    have := foldl_ite_succ (fun j => decide (l.getD i 0 > l.getD j 0))
      (List.range' (i + 1) (l.length - (i + 1))) a
    simpa [laterSmaller] using this
  simp only [h]
  rw [foldl_add_sum]; simp

theorem countP_getD_range (x : Int) (l : List Int) (s : Nat) :
    (List.range' s l.length).countP (fun j => decide (x > l.getD (j - s) 0))
      = l.countP (fun y => decide (x > y)) := by
  induction l generalizing s with
  | nil => simp
  | cons y l ih =>
    simp only [List.length_cons, List.range'_succ, List.countP_cons, Nat.sub_self,
      List.getD_cons_zero]
    have h2 : (List.range' (s + 1) l.length).countP (fun j => decide (x > (y :: l).getD (j - s) 0))
        = (List.range' (s + 1) l.length).countP (fun j => decide (x > l.getD (j - (s + 1)) 0)) := by
      apply List.countP_congr
      intro j hj
      rw [List.mem_range'_1] at hj
      have : j - s = (j - (s + 1)) + 1 := by omega
      rw [this, List.getD_cons_succ]
    rw [h2, ih]

theorem laterSmaller_zero (x : Int) (l : List Int) :
    laterSmaller (x :: l) 0 = l.countP (fun y => decide (x > y)) := by
  unfold laterSmaller
  simp only [List.length_cons, zero_add, Nat.add_sub_cancel, List.getD_cons_zero]
  rw [← countP_getD_range x l 1]
  apply List.countP_congr
  intro j hj
  rw [List.mem_range'_1] at hj
  have : j = (j - 1) + 1 := by omega
  rw [this, List.getD_cons_succ]; simp

theorem laterSmaller_succ (x : Int) (l : List Int) (i : Nat) :
    laterSmaller (x :: l) (i + 1) = laterSmaller l i := by
  unfold laterSmaller
  simp only [List.length_cons, List.getD_cons_succ, Nat.add_sub_add_right]
  rw [show List.range' (i + 1 + 1) (l.length - (i + 1))
        = (List.range' (i + 1) (l.length - (i + 1))).map Nat.succ from by
        rw [List.range'_eq_map_range, List.range'_eq_map_range, List.map_map]
        apply List.map_congr_left; intro a _; simp; omega]
  rw [List.countP_map]
  apply List.countP_congr
  intro j _
  simp [List.getD_cons_succ]

theorem countInversions_eq_invCount (l : List Int) : countInversions l = invCount l := by
  rw [countInversions_eq_sum]
  induction l with
  | nil => simp [invCount]
  | cons x l ih =>
    rw [List.length_cons, List.range_succ_eq_map, List.map_cons, List.sum_cons, List.map_map,
      invCount, laterSmaller_zero]
    congr 1
    rw [← ih]
    congr 1
    apply List.map_congr_left
    intro i _
    simp [laterSmaller_succ]

theorem sum_ite_getD (x : Int) (l : List Int) :
    (∑ j ∈ Finset.range l.length, if x > l.getD j 0 then 1 else 0)
      = l.countP (fun y => decide (x > y)) := by
  induction l with
  | nil => simp
  | cons y l ih =>
    rw [List.length_cons, Finset.sum_range_succ', List.countP_cons]
    simp only [List.getD_cons_succ, List.getD_cons_zero, ih]
    simp

theorem card_inversionPairs (l : List Int) : (inversionPairs l).card = invCount l := by
  unfold inversionPairs
  rw [Finset.card_filter, Finset.sum_product]
  induction l with
  | nil => simp [invCount]
  | cons x l ih =>
    rw [List.length_cons, Finset.sum_range_succ', invCount, ← ih, ← sum_ite_getD]
    rw [Finset.sum_range_succ']
    simp only [List.getD_cons_succ, List.getD_cons_zero, Nat.add_lt_add_iff_right,
      Nat.not_lt_zero, false_and, if_false, add_zero, Nat.zero_lt_succ, true_and, lt_self_iff_false]
    rw [add_comm]
    congr 1
    apply Finset.sum_congr rfl
    intro i _
    rw [Finset.sum_range_succ']
    simp

/-- C1: `isSolvable board` is true exactly when the number of inversions (pairs of indices
`i < j` with `value[i] > value[j]`) of the row-major flattening without the blank is even;
it is true on the solved board and false on `[[1,2,3],[4,5,6],[8,7,0]]`. -/
theorem C1_isSolvable_iff_even_inversions (board : Board) :
    (isSolvable board = true ↔
        Even (inversionPairs (board.flatten.filter (fun v => v != 0))).card)
      ∧ isSolvable [[1, 2, 3], [4, 5, 6], [7, 8, 0]] = true
      ∧ isSolvable [[1, 2, 3], [4, 5, 6], [8, 7, 0]] = false := by
  refine ⟨?_, by decide, by decide⟩
  unfold isSolvable
  simp only [card_inversionPairs, countInversions_eq_invCount, beq_iff_eq, Nat.even_iff]

/-! ## The generator -/

theorem swapAt_length (l : List Int) (i j : Nat) : (swapAt l i j).length = l.length := by
  simp [swapAt]

theorem one_le_count_getElem (l : List Int) (i : Nat) (h : i < l.length) (b : Int)
    (hb : l[i] = b) : 1 ≤ l.count b := by
  have : b ∈ l := hb ▸ List.getElem_mem h
  exact List.count_pos_iff.mpr this

theorem swapAt_self (l : List Int) (i : Nat) : swapAt l i i = l := by
  unfold swapAt
  by_cases hi : i < l.length
  · rw [List.getD_eq_getElem l 0 hi]
    have e : l.set i l[i] = l := by
      apply List.ext_getElem (by simp)
      intro n h1 h2
      rw [List.getElem_set]
      split
      · subst_vars; rfl
      · rfl
    rw [e, e]
  · have e : l.set i (l.getD i 0) = l := List.set_eq_of_length_le (by omega)
    rw [e, e]

theorem swapAt_perm (l : List Int) (i j : Nat) (hi : i < l.length) (hj : j < l.length) :
    (swapAt l i j).Perm l := by
  by_cases hij : i = j
  · subst hij; rw [swapAt_self]
  rw [List.perm_iff_count]
  intro b
  unfold swapAt
  have hj2 : j < (l.set i (l.getD j 0)).length := by simpa using hj
  rw [List.count_set _ _ _ _ hj2, List.count_set _ _ _ _ hi]
  have h1 := one_le_count_getElem l i hi b
  have e1 : (l.set i (l.getD j 0))[j] = l[j] := by
    rw [List.getElem_set]; simp [hij]
  rw [e1, List.getD_eq_getElem l 0 hi, List.getD_eq_getElem l 0 hj]
  simp only [beq_iff_eq]
  split_ifs <;> simp_all

theorem shuffle_fold_perm (n : Nat) (draw : Nat → Nat) (ks : List Nat) (nums : List Int)
    (hn : nums.length = n + 1) (hk : ∀ k ∈ ks, k < n ∧ draw k ≤ n - k) :
    (ks.foldl (fun nums k => swapAt nums (n - k) (draw k)) nums).Perm nums := by
  induction ks generalizing nums with
  | nil => exact List.Perm.refl _
  | cons k ks ih =>
    rw [List.foldl_cons]
    have hk0 := hk k (List.mem_cons_self _ _)
    have hp : (swapAt nums (n - k) (draw k)).Perm nums :=
      swapAt_perm nums _ _ (by omega) (by omega)
    exact (ih _ (by rw [swapAt_length, hn])
      (fun k1 h1 => hk k1 (List.mem_cons_of_mem _ h1))).trans hp

theorem shuffle_perm (draw : Nat → Nat) (numbers : List Int)
    (hd : ∀ k, k < numbers.length - 1 → draw k ≤ numbers.length - 1 - k) :
    (shuffle draw numbers).Perm numbers := by
  unfold shuffle
  cases numbers with
  | nil => simp
  | cons x l =>
    apply shuffle_fold_perm (x :: l).length.pred draw _ _ (by simp)
    intro k hk
    rw [List.mem_range] at hk
    exact ⟨by simpa using hk, by simpa using hd k hk⟩

theorem eq_of_length_nine (l : List Int) (h : l.length = 9) :
    ∃ a b c d e f g h i, l = [a, b, c, d, e, f, g, h, i] := by
  match l, h with
  | [a, b, c, d, e, f, g, h, i], _ => exact ⟨a, b, c, d, e, f, g, h, i, rfl⟩

theorem generateAttempt_wellFormed (draws : Nat → Nat) (hd : ValidDraws draws) (attempt : Nat) :
    WellFormed (generateAttempt draws attempt) := by
  have hp : (shuffle (fun k => draws (8 * attempt + k)) [1, 2, 3, 4, 5, 6, 7, 8, 0]).Perm
      [1, 2, 3, 4, 5, 6, 7, 8, 0] := by
    apply shuffle_perm
    intro k hk
    exact hd attempt k (by simpa using hk)
  obtain ⟨a, b, c, d, e, f, g, h, i, hl⟩ := eq_of_length_nine _ hp.length_eq
  unfold generateAttempt
  rw [hl] at hp ⊢
  refine ⟨rfl, ?_, ?_⟩
  · intro r hr
    simp only [sliceOf, List.mem_cons, List.mem_singleton, List.not_mem_nil, or_false] at hr
    rcases hr with rfl | rfl | rfl <;> rfl
  · have e : [sliceOf [a, b, c, d, e, f, g, h, i] 0 3, sliceOf [a, b, c, d, e, f, g, h, i] 3 6,
        sliceOf [a, b, c, d, e, f, g, h, i] 6 9].flatten = [a, b, c, d, e, f, g, h, i] := rfl
    rw [e]
    exact hp.trans (by decide)

theorem generatePuzzleLoop_succ (draws : Nat → Nat) (fuel attempt : Nat) :
    generatePuzzleLoop draws (fuel + 1) attempt =
      if isSolvable (generateAttempt draws attempt) = true then
        some (generateAttempt draws attempt)
      else generatePuzzleLoop draws fuel (attempt + 1) := by
  simp only [generatePuzzleLoop]

theorem generatePuzzleLoop_some (draws : Nat → Nat) (fuel attempt : Nat) (board : Board)
    (h : generatePuzzleLoop draws fuel attempt = some board) :
    ∃ a, board = generateAttempt draws a ∧ isSolvable board = true := by
  induction fuel generalizing attempt with
  | zero => simp [generatePuzzleLoop] at h
  | succ fuel ih =>
    rw [generatePuzzleLoop_succ] at h
    split at h
    · rename_i hs
      injection h with h
      exact ⟨attempt, h.symm, h ▸ hs⟩
    · exact ih _ h

theorem wellFormed_count (board : Board) (h : WellFormed board) (v : Int) (h0 : 0 ≤ v)
    (h8 : v ≤ 8) : board.flatten.count v = 1 := by
  rw [h.2.2.count_eq]
  interval_cases v <;> decide

/-- C2: whenever `generatePuzzle` returns a board, on draws that are valid indices, the board
has 3 rows of 3 cells, holds each of the values `0..8` exactly once, and is solvable; so it
is not the odd board `[[1,2,3],[4,5,6],[8,7,0]]`. -/
theorem C2_generatePuzzle_wellFormed_solvable (draws : Nat → Nat) (fuel : Nat) (board : Board)
    (hd : ValidDraws draws) (h : generatePuzzle draws fuel = some board) :
    board.length = 3 ∧ (∀ r ∈ board, r.length = 3) ∧
      (∀ v : Int, 0 ≤ v → v ≤ 8 → board.flatten.count v = 1) ∧
      isSolvable board = true ∧ board ≠ [[1, 2, 3], [4, 5, 6], [8, 7, 0]] := by
  obtain ⟨a, hb, hs⟩ := generatePuzzleLoop_some draws fuel 0 board h
  have hw : WellFormed board := hb ▸ generateAttempt_wellFormed draws hd a
  refine ⟨hw.1, hw.2.1, wellFormed_count board hw, hs, ?_⟩
  intro hbad
  rw [hbad] at hs
  exact absurd hs (by decide)

/-- Witness for C2: with every draw equal to its own index `i` the first pass returns the
solved board. -/
theorem C2_generatePuzzle_wellFormed_solvable_witness :
    ValidDraws (fun n => 8 - n % 8) ∧
      generatePuzzle (fun n => 8 - n % 8) 1 = some [[1, 2, 3], [4, 5, 6], [7, 8, 0]] ∧
      isSolvable [[1, 2, 3], [4, 5, 6], [7, 8, 0]] = true :=
  ⟨fun attempt k hk => by
      show 8 - (8 * attempt + k) % 8 ≤ 8 - k
      omega,
    by decide,
    (C2_generatePuzzle_wellFormed_solvable (fun n => 8 - n % 8) 1 [[1, 2, 3], [4, 5, 6], [7, 8, 0]]
      (fun attempt k hk => by
        show 8 - (8 * attempt + k) % 8 ≤ 8 - k
        omega)
      (by decide)).2.2.2.1⟩

theorem generatePuzzleLoop_returns (draws : Nat → Nat) (fuel start a : Nat) (h1 : start ≤ a)
    (h2 : a < start + fuel) (hs : isSolvable (generateAttempt draws a) = true) :
    ∃ board, generatePuzzleLoop draws fuel start = some board := by
  induction fuel generalizing start with
  | zero => omega
  | succ fuel ih =>
    rw [generatePuzzleLoop_succ]
    split
    · exact ⟨_, rfl⟩
    · rename_i hns
      have hne : start ≠ a := fun e => hns (e ▸ hs)
      exact ih (start + 1) (by omega) (by omega)

/-- The retry loop returns as soon as some pass builds a solvable board: enough fuel gives a
result. -/
theorem generatePuzzle_returns (draws : Nat → Nat) (a : Nat)
    (hs : isSolvable (generateAttempt draws a) = true) :
    ∃ board, generatePuzzle draws (a + 1) = some board :=
  generatePuzzleLoop_returns draws (a + 1) 0 a (Nat.zero_le _) (by omega) hs

theorem generatePuzzleLoop_zero_draws (fuel attempt : Nat) :
    generatePuzzleLoop (fun _ => 0) fuel attempt = none := by
  induction fuel generalizing attempt with
  | zero => rfl
  | succ fuel ih =>
    have e : isSolvable (generateAttempt (fun _ => 0) attempt) = false := by
      show isSolvable (generateAttempt (fun _ => 0) 0) = false
      decide
    rw [generatePuzzleLoop_succ, e]
    exact ih _

/-- The retry loop need not end: when every draw is `0` each pass builds the same
unsolvable board, so no amount of fuel yields a result. -/
theorem generatePuzzle_zero_draws (fuel : Nat) : generatePuzzle (fun _ => 0) fuel = none :=
  generatePuzzleLoop_zero_draws fuel 0

/-! ## Well-formed boards and the blank -/

theorem wellFormed_form (board : Board) (hw : WellFormed board) :
    ∃ a b c d e f g h i : Int, board = [[a, b, c], [d, e, f], [g, h, i]] ∧
      [a, b, c, d, e, f, g, h, i].Perm [0, 1, 2, 3, 4, 5, 6, 7, 8] := by
  obtain ⟨h3, hr, hp⟩ := hw
  match board, h3 with
  | [r0, r1, r2], _ =>
    have h0 := hr r0 (by simp)
    have h1 := hr r1 (by simp)
    have h2 := hr r2 (by simp)
    match r0, h0, r1, h1, r2, h2 with
    | [a, b, c], _, [d, e, f], _, [g, h, i], _ =>
      exact ⟨a, b, c, d, e, f, g, h, i, rfl, by simpa using hp⟩

theorem readCell_some_bounds (a b c d e f g h i : Int) (qr qc : Nat) (v : Int)
    (hq : readCell [[a, b, c], [d, e, f], [g, h, i]] qr qc = .ok (some v)) :
    qr < 3 ∧ qc < 3 := by
  unfold readCell at hq
  rcases qr with _ | _ | _ | qr <;> rcases qc with _ | _ | _ | qc <;> simp at hq <;> omega

theorem findEmptyTile_of_blank (board : Board) (hw : WellFormed board) (qr qc : Nat)
    (hq : readCell board qr qc = .ok (some 0)) :
    findEmptyTile board = .ok (some ⟨qr, qc⟩) := by
  obtain ⟨a, b, c, d, e, f, g, h, i, rfl, hp⟩ := wellFormed_form board hw
  have hnd : [a, b, c, d, e, f, g, h, i].Nodup := hp.nodup_iff.mpr (by decide)
  obtain ⟨h1, h2⟩ := readCell_some_bounds _ _ _ _ _ _ _ _ _ _ _ _ hq
  simp only [List.nodup_cons, List.mem_cons, List.mem_singleton, not_or, List.not_mem_nil,
    not_false_eq_true, List.nodup_nil, and_true] at hnd
  interval_cases qr <;> interval_cases qc <;>
    simp [readCell] at hq <;> subst hq <;>
    simp [findEmptyTile, scanOrder, findEmptyTileFrom, readCell] <;>
    simp_all [eq_comm]

theorem canMove_eq_adjacent (board : Board) (hw : WellFormed board) (qr qc : Nat)
    (hq : readCell board qr qc = .ok (some 0)) (row col : Nat) :
    canMove board row col = .ok (adjacent row col ⟨qr, qc⟩) := by
  unfold canMove
  rw [findEmptyTile_of_blank board hw qr qc hq]

theorem adjacent_iff_manhattan (row col qr qc : Nat) :
    adjacent row col ⟨qr, qc⟩ = true ↔
      ((row : Int) - (qr : Int)).natAbs + ((col : Int) - (qc : Int)).natAbs = 1 := by
  simp only [adjacent, Bool.or_eq_true, Bool.and_eq_true, beq_iff_eq]
  omega

/-- C5: on a well-formed board whose blank is at `(qr, qc)`, `canMove` returns a boolean at
every position of the grid, and that boolean is true exactly when the Manhattan distance to
the blank is 1; it is false at the blank itself and at distance 2 or more. -/
theorem C5_canMove_iff_manhattan_one (board : Board) (hw : WellFormed board) (qr qc : Nat)
    (hq : readCell board qr qc = .ok (some 0)) (row col : Nat) :
    (canMove board row col = .ok true ↔
        ((row : Int) - (qr : Int)).natAbs + ((col : Int) - (qc : Int)).natAbs = 1) ∧
      (canMove board row col = .ok true ∨ canMove board row col = .ok false) ∧
      canMove board qr qc = .ok false ∧
      (2 ≤ ((row : Int) - (qr : Int)).natAbs + ((col : Int) - (qc : Int)).natAbs →
        canMove board row col = .ok false) := by
  have hm := adjacent_iff_manhattan row col qr qc
  have hq0 := adjacent_iff_manhattan qr qc qr qc
  rw [canMove_eq_adjacent board hw qr qc hq, canMove_eq_adjacent board hw qr qc hq]
  cases hadj : adjacent row col ⟨qr, qc⟩ <;> cases hadj0 : adjacent qr qc ⟨qr, qc⟩ <;>
    simp_all

/-- Witness for C5 on the solved board, blank at `(2, 2)`, position `(2, 1)`. -/
theorem C5_canMove_iff_manhattan_one_witness :
    WellFormed solvedBoard ∧ readCell solvedBoard 2 2 = .ok (some 0) ∧
      (canMove solvedBoard 2 1 = .ok true ↔
        (((2 : Nat) : Int) - ((2 : Nat) : Int)).natAbs
          + (((1 : Nat) : Int) - ((2 : Nat) : Int)).natAbs = 1) :=
  ⟨by decide, by decide,
    (C5_canMove_iff_manhattan_one solvedBoard (by decide) 2 2 (by decide) 2 1).1⟩

/-! ## Reading and writing cells -/

theorem readCell_writeCell (board newBoard : Board) (row col : Nat) (v : Option Int)
    (hw : writeCell board row col v = .ok newBoard) (x y : Nat) :
    readCell newBoard x y = if x = row ∧ y = col then .ok v else readCell board x y := by
  unfold writeCell at hw
  split at hw
  · exact absurd hw (by simp)
  · exact absurd hw (by simp)
  · rename_i r val hrow
    split at hw
    · rename_i hcol
      injection hw with hw
      subst hw
      have hlt : row < board.length := by
        rcases List.getElem?_eq_some_iff.mp hrow with ⟨h, _⟩
        exact h
      unfold readCell
      by_cases hx : x = row
      · subst hx
        rw [List.getElem?_set_self hlt, hrow]
        by_cases hy : y = col
        · subst hy
          simp [List.getElem?_set_self hcol]
        · simp [hy, List.getElem?_set_ne (Ne.symm hy)]
      · rw [List.getElem?_set_ne (Ne.symm hx)]
        simp [hx]
    · exact absurd hw (by simp)

/-! ## Inversion parity under moves -/

theorem invCount_prefix_congr (pre m1 m2 : List Int) (hp : m1.Perm m2)
    (h : invCount m1 % 2 = invCount m2 % 2) :
    invCount (pre ++ m1) % 2 = invCount (pre ++ m2) % 2 := by
  induction pre with
  | nil => simpa using h
  | cons x pre ih =>
    simp only [List.cons_append, invCount, List.append_eq]
    have hc : (pre ++ m1).countP (fun y => decide (x > y))
        = (pre ++ m2).countP (fun y => decide (x > y)) :=
      (List.Perm.append_left pre hp).countP_eq _
    omega

theorem invCount_rotate (t u v : Int) (l : List Int) (htu : t ≠ u) (htv : t ≠ v) :
    invCount (t :: u :: v :: l) % 2 = invCount (u :: v :: t :: l) % 2 := by
  simp only [invCount, List.countP_cons, decide_eq_true_eq]
  split_ifs <;> omega

theorem invCount_rotate_in (pre : List Int) (t u v : Int) (l : List Int) (htu : t ≠ u)
    (htv : t ≠ v) :
    invCount (pre ++ t :: u :: v :: l) % 2 = invCount (pre ++ u :: v :: t :: l) % 2 := by
  apply invCount_prefix_congr
  · exact (@List.perm_append_comm Int [t] [u, v]).append_right l
  · exact invCount_rotate t u v l htu htv
theorem exists_blank (board : Board) (hw : WellFormed board) :
    ∃ qr qc, qr < 3 ∧ qc < 3 ∧ readCell board qr qc = .ok (some 0) := by
  obtain ⟨a, b, c, d, e, f, g, h, i, rfl, hp⟩ := wellFormed_form board hw
  have h0 : (0 : Int) ∈ [a, b, c, d, e, f, g, h, i] := hp.mem_iff.mpr (by decide)
  simp only [List.mem_cons, List.mem_singleton, List.not_mem_nil, or_false] at h0
  rcases h0 with rfl | rfl | rfl | rfl | rfl | rfl | rfl | rfl | rfl
  · exact ⟨0, 0, by decide, by decide, rfl⟩
  · exact ⟨0, 1, by decide, by decide, rfl⟩
  · exact ⟨0, 2, by decide, by decide, rfl⟩
  · exact ⟨1, 0, by decide, by decide, rfl⟩
  · exact ⟨1, 1, by decide, by decide, rfl⟩
  · exact ⟨1, 2, by decide, by decide, rfl⟩
  · exact ⟨2, 0, by decide, by decide, rfl⟩
  · exact ⟨2, 1, by decide, by decide, rfl⟩
  · exact ⟨2, 2, by decide, by decide, rfl⟩

theorem swapWithEmpty_eq (board : Board) (qr qc row col : Nat)
    (hf : findEmptyTile board = .ok (some ⟨qr, qc⟩)) :
    swapWithEmpty board row col =
      match readCell board qr qc, readCell board row col with
      | .error e, _ => .error e
      | .ok _, .error e => .error e
      | .ok fromEmpty, .ok fromTile =>
        match writeCell board row col fromEmpty with
        | .error e => .error e
        | .ok newPuzzle => writeCell newPuzzle qr qc fromTile := by
  unfold swapWithEmpty
  rw [hf]
  simp only [List.map_id_fun', id_eq]


theorem swapAt_perm_of {l l2 target : List Int} (hp : l.Perm target) (i j : Nat)
    (e : l2 = swapAt l i j) (hi : i < l.length) (hj : j < l.length) : l2.Perm target :=
  e ▸ (swapAt_perm l i j hi hj).trans hp

theorem mod_two_eq_zero_congr (x y : Nat) (h : x % 2 = y % 2) : x % 2 = 0 ↔ y % 2 = 0 := by
  rw [h]

theorem rotate_fwd0 (t u v : Int) (l : List Int) (htu : t ≠ u) (htv : t ≠ v) :
    invCount (t :: u :: v :: l) % 2 = invCount (u :: v :: t :: l) % 2 :=
  invCount_rotate_in [] t u v l htu htv

theorem rotate_bwd0 (t u v : Int) (l : List Int) (htu : t ≠ u) (htv : t ≠ v) :
    invCount (u :: v :: t :: l) % 2 = invCount (t :: u :: v :: l) % 2 :=
  (invCount_rotate_in [] t u v l htu htv).symm

theorem rotate_fwd1 (x1 t u v : Int) (l : List Int) (htu : t ≠ u) (htv : t ≠ v) :
    invCount (x1 :: t :: u :: v :: l) % 2 = invCount (x1 :: u :: v :: t :: l) % 2 :=
  invCount_rotate_in [x1] t u v l htu htv

theorem rotate_bwd1 (x1 t u v : Int) (l : List Int) (htu : t ≠ u) (htv : t ≠ v) :
    invCount (x1 :: u :: v :: t :: l) % 2 = invCount (x1 :: t :: u :: v :: l) % 2 :=
  (invCount_rotate_in [x1] t u v l htu htv).symm

theorem rotate_fwd2 (x1 x2 t u v : Int) (l : List Int) (htu : t ≠ u) (htv : t ≠ v) :
    invCount (x1 :: x2 :: t :: u :: v :: l) % 2 = invCount (x1 :: x2 :: u :: v :: t :: l) % 2 :=
  invCount_rotate_in [x1, x2] t u v l htu htv

theorem rotate_bwd2 (x1 x2 t u v : Int) (l : List Int) (htu : t ≠ u) (htv : t ≠ v) :
    invCount (x1 :: x2 :: u :: v :: t :: l) % 2 = invCount (x1 :: x2 :: t :: u :: v :: l) % 2 :=
  (invCount_rotate_in [x1, x2] t u v l htu htv).symm

theorem rotate_fwd3 (x1 x2 x3 t u v : Int) (l : List Int) (htu : t ≠ u) (htv : t ≠ v) :
    invCount (x1 :: x2 :: x3 :: t :: u :: v :: l) % 2 = invCount (x1 :: x2 :: x3 :: u :: v :: t :: l) % 2 :=
  invCount_rotate_in [x1, x2, x3] t u v l htu htv

theorem rotate_bwd3 (x1 x2 x3 t u v : Int) (l : List Int) (htu : t ≠ u) (htv : t ≠ v) :
    invCount (x1 :: x2 :: x3 :: u :: v :: t :: l) % 2 = invCount (x1 :: x2 :: x3 :: t :: u :: v :: l) % 2 :=
  (invCount_rotate_in [x1, x2, x3] t u v l htu htv).symm

theorem rotate_fwd4 (x1 x2 x3 x4 t u v : Int) (l : List Int) (htu : t ≠ u) (htv : t ≠ v) :
    invCount (x1 :: x2 :: x3 :: x4 :: t :: u :: v :: l) % 2 = invCount (x1 :: x2 :: x3 :: x4 :: u :: v :: t :: l) % 2 :=
  invCount_rotate_in [x1, x2, x3, x4] t u v l htu htv

theorem rotate_bwd4 (x1 x2 x3 x4 t u v : Int) (l : List Int) (htu : t ≠ u) (htv : t ≠ v) :
    invCount (x1 :: x2 :: x3 :: x4 :: u :: v :: t :: l) % 2 = invCount (x1 :: x2 :: x3 :: x4 :: t :: u :: v :: l) % 2 :=
  (invCount_rotate_in [x1, x2, x3, x4] t u v l htu htv).symm

theorem rotate_fwd5 (x1 x2 x3 x4 x5 t u v : Int) (l : List Int) (htu : t ≠ u) (htv : t ≠ v) :
    invCount (x1 :: x2 :: x3 :: x4 :: x5 :: t :: u :: v :: l) % 2 = invCount (x1 :: x2 :: x3 :: x4 :: x5 :: u :: v :: t :: l) % 2 :=
  invCount_rotate_in [x1, x2, x3, x4, x5] t u v l htu htv

theorem rotate_bwd5 (x1 x2 x3 x4 x5 t u v : Int) (l : List Int) (htu : t ≠ u) (htv : t ≠ v) :
    invCount (x1 :: x2 :: x3 :: x4 :: x5 :: u :: v :: t :: l) % 2 = invCount (x1 :: x2 :: x3 :: x4 :: x5 :: t :: u :: v :: l) % 2 :=
  (invCount_rotate_in [x1, x2, x3, x4, x5] t u v l htu htv).symm

set_option maxHeartbeats 1000000 in
/-- A legal move on a well-formed board succeeds, gives a well-formed board, and keeps the
value of `isSolvable`. -/
theorem swapWithEmpty_preserves (board : Board) (hw : WellFormed board) (row col : Nat)
    (hr : row < 3) (hc : col < 3) (hm : canMove board row col = .ok true) :
    ∃ N, swapWithEmpty board row col = .ok N ∧ WellFormed N ∧
      isSolvable N = isSolvable board := by
  obtain ⟨qr, qc, hqr, hqc, hq⟩ := exists_blank board hw
  rw [canMove_eq_adjacent board hw qr qc hq] at hm
  rw [swapWithEmpty_eq board qr qc row col (findEmptyTile_of_blank board hw qr qc hq)]
  obtain ⟨a, b, c, d, e, f, g, h, i, rfl, hp⟩ := wellFormed_form board hw
  have hnd : [a, b, c, d, e, f, g, h, i].Nodup := hp.nodup_iff.mpr (by decide)
  simp only [List.nodup_cons, List.mem_cons, List.mem_singleton, not_or, List.not_mem_nil,
    not_false_eq_true, List.nodup_nil, and_true] at hnd
  injection hm with hm
  interval_cases qr <;> interval_cases qc <;> interval_cases row <;> interval_cases col <;>
    first
    | exact absurd hm (by decide)
    | (simp only [readCell, List.getElem?_cons_zero, List.getElem?_cons_succ, Except.ok.injEq,
        Option.some.injEq] at hq
       subst hq
       try simp only [@eq_comm Int 0] at hnd
       simp only [readCell, writeCell, List.getElem?_cons_zero, List.getElem?_cons_succ,
         List.length_cons, List.length_nil, List.set_cons_zero, List.set_cons_succ,
         Nat.reduceAdd, Nat.reduceLT, if_true, Except.ok.injEq, exists_eq_left']
       refine ⟨⟨rfl, by simp, ?_⟩, ?_⟩
       · first
         | exact swapAt_perm_of hp 0 1 rfl (by simp) (by simp)
         | exact swapAt_perm_of hp 1 2 rfl (by simp) (by simp)
         | exact swapAt_perm_of hp 3 4 rfl (by simp) (by simp)
         | exact swapAt_perm_of hp 4 5 rfl (by simp) (by simp)
         | exact swapAt_perm_of hp 6 7 rfl (by simp) (by simp)
         | exact swapAt_perm_of hp 7 8 rfl (by simp) (by simp)
         | exact swapAt_perm_of hp 0 3 rfl (by simp) (by simp)
         | exact swapAt_perm_of hp 1 4 rfl (by simp) (by simp)
         | exact swapAt_perm_of hp 2 5 rfl (by simp) (by simp)
         | exact swapAt_perm_of hp 3 6 rfl (by simp) (by simp)
         | exact swapAt_perm_of hp 4 7 rfl (by simp) (by simp)
         | exact swapAt_perm_of hp 5 8 rfl (by simp) (by simp)
       · simp [isSolvable, countInversions_eq_invCount, hnd]
         first
         | done
         | (apply mod_two_eq_zero_congr
            first
            | (rw [rotate_fwd0] <;> (intro hx; subst hx; simp at hnd))
            | (rw [rotate_bwd0] <;> (intro hx; subst hx; simp at hnd))
            | (rw [rotate_fwd1] <;> (intro hx; subst hx; simp at hnd))
            | (rw [rotate_bwd1] <;> (intro hx; subst hx; simp at hnd))
            | (rw [rotate_fwd2] <;> (intro hx; subst hx; simp at hnd))
            | (rw [rotate_bwd2] <;> (intro hx; subst hx; simp at hnd))
            | (rw [rotate_fwd3] <;> (intro hx; subst hx; simp at hnd))
            | (rw [rotate_bwd3] <;> (intro hx; subst hx; simp at hnd))
            | (rw [rotate_fwd4] <;> (intro hx; subst hx; simp at hnd))
            | (rw [rotate_bwd4] <;> (intro hx; subst hx; simp at hnd))
            | (rw [rotate_fwd5] <;> (intro hx; subst hx; simp at hnd))
            | (rw [rotate_bwd5] <;> (intro hx; subst hx; simp at hnd))))

/-- C4: a legal move on a well-formed board keeps the value of `isSolvable`: the board built
by the swap of `handleTileClick` has the same inversion parity as the board before. -/
theorem C4_move_preserves_isSolvable (board : Board) (hw : WellFormed board) (row col : Nat)
    (hr : row < 3) (hc : col < 3) (hm : canMove board row col = .ok true) :
    ∃ N, swapWithEmpty board row col = .ok N ∧ isSolvable N = isSolvable board := by
  obtain ⟨N, h1, _, h3⟩ := swapWithEmpty_preserves board hw row col hr hc hm
  exact ⟨N, h1, h3⟩

/-- Witness for C4: moving the tile 8 of the solved board. -/
theorem C4_move_preserves_isSolvable_witness :
    WellFormed solvedBoard ∧ canMove solvedBoard 2 1 = .ok true ∧
      ∃ N, swapWithEmpty solvedBoard 2 1 = .ok N ∧ isSolvable N = isSolvable solvedBoard :=
  ⟨by decide, by decide,
    C4_move_preserves_isSolvable solvedBoard (by decide) 2 1 (by decide) (by decide)
      (by decide)⟩

/-! ## The move as a swap of two cells -/

theorem swapWithEmpty_cells (board N : Board) (qr qc row col : Nat)
    (hf : findEmptyTile board = .ok (some ⟨qr, qc⟩))
    (hs : swapWithEmpty board row col = .ok N) (x y : Nat) :
    readCell N x y =
      if x = qr ∧ y = qc then readCell board row col
      else if x = row ∧ y = col then readCell board qr qc
      else readCell board x y := by
  rw [swapWithEmpty_eq board qr qc row col hf] at hs
  cases h1 : readCell board qr qc with
  | error e => rw [h1] at hs; exact absurd hs (by simp)
  | ok v1 =>
    cases h2 : readCell board row col with
    | error e => rw [h1, h2] at hs; exact absurd hs (by simp)
    | ok v2 =>
      rw [h1, h2] at hs
      simp only at hs
      cases h3 : writeCell board row col v1 with
      | error e => rw [h3] at hs; exact absurd hs (by simp)
      | ok N1 =>
        rw [h3] at hs
        simp only at hs
        rw [readCell_writeCell N1 N qr qc v2 hs x y, readCell_writeCell board N1 row col v1 h3 x y]

theorem adjacent_symm (row col qr qc : Nat) :
    adjacent qr qc ⟨row, col⟩ = adjacent row col ⟨qr, qc⟩ := by
  rw [Bool.eq_iff_iff, adjacent_iff_manhattan, adjacent_iff_manhattan]
  omega

theorem adjacent_ne (row col qr qc : Nat) (h : adjacent row col ⟨qr, qc⟩ = true) :
    ¬(row = qr ∧ col = qc) := by
  rw [adjacent_iff_manhattan] at h
  omega

theorem board_ext (A B : Board) (hA : WellFormed A) (hB : WellFormed B)
    (h : ∀ x y, x < 3 → y < 3 → readCell A x y = readCell B x y) : A = B := by
  obtain ⟨a, b, c, d, e, f, g, h1, i, rfl, _⟩ := wellFormed_form A hA
  obtain ⟨a2, b2, c2, d2, e2, f2, g2, h2, i2, rfl, _⟩ := wellFormed_form B hB
  have h00 := h 0 0 (by decide) (by decide)
  have h01 := h 0 1 (by decide) (by decide)
  have h02 := h 0 2 (by decide) (by decide)
  have h10 := h 1 0 (by decide) (by decide)
  have h11 := h 1 1 (by decide) (by decide)
  have h12 := h 1 2 (by decide) (by decide)
  have h20 := h 2 0 (by decide) (by decide)
  have h21 := h 2 1 (by decide) (by decide)
  have h22 := h 2 2 (by decide) (by decide)
  simp only [readCell, List.getElem?_cons_zero, List.getElem?_cons_succ, Except.ok.injEq,
    Option.some.injEq] at h00 h01 h02 h10 h11 h12 h20 h21 h22
  subst_vars
  rfl

/-! ## The move on a store of row arrays -/

theorem deref_append_left (heap extra : Heap) (puzzle : BoardRef) (board : Board)
    (h : deref heap puzzle = some board) : deref (heap ++ extra) puzzle = some board := by
  induction puzzle generalizing board with
  | nil => exact h
  | cons a rest ih =>
    unfold deref at h ⊢
    cases ha : heap[a]? with
    | none => rw [ha] at h; exact absurd h (by simp)
    | some r =>
      cases hr : deref heap rest with
      | none => rw [ha, hr] at h; exact absurd h (by simp)
      | some b =>
        rw [ha, hr] at h
        have hlt : a < heap.length := (List.getElem?_eq_some_iff.mp ha).1
        rw [List.getElem?_append_left hlt, ha, ih b hr]
        exact h

theorem deref_fresh (heap : Heap) (board : Board) :
    deref (heap ++ board) (List.range' heap.length board.length) = some board := by
  induction board generalizing heap with
  | nil => rfl
  | cons r t ih =>
    have e : heap ++ r :: t = (heap ++ [r]) ++ t := by simp
    have hrec := ih (heap ++ [r])
    rw [← e, List.length_append, List.length_singleton] at hrec
    have hget : (heap ++ r :: t)[heap.length]? = some r := by
      rw [List.getElem?_append_right (le_refl _)]
      simp
    rw [List.length_cons, List.range'_succ, deref, hrec, hget]

theorem getElem?_fresh (heap : Heap) (board : Board) (row : Nat) :
    (match (List.range' heap.length board.length)[row]? with
      | none => none
      | some a => (heap ++ board)[a]?) = board[row]? := by
  by_cases hr : row < board.length
  · rw [List.getElem?_eq_getElem (by simpa using hr)]
    simp only [List.getElem_range', Nat.one_mul]
    rw [List.getElem?_append_right (by omega)]
    simp
  · rw [List.getElem?_eq_none (by simpa using hr), List.getElem?_eq_none (by omega)]

theorem heapReadCell_fresh (heap : Heap) (board : Board) (row col : Nat) :
    heapReadCell (heap ++ board) (List.range' heap.length board.length) row col
      = readCell board row col := by
  unfold heapReadCell readCell
  have h := getElem?_fresh heap board row
  by_cases hr : row < board.length
  · have e1 : (List.range' heap.length board.length)[row]? = some (heap.length + row) := by
      rw [List.getElem?_eq_getElem (by simpa using hr)]
      simp
    rw [e1] at h ⊢
    simp only at h ⊢
    rw [h]
  · rw [List.getElem?_eq_none (by simpa using hr), List.getElem?_eq_none (by omega)]

theorem writeCell_length (board N : Board) (row col : Nat) (v : Option Int)
    (h : writeCell board row col v = .ok N) : N.length = board.length := by
  unfold writeCell at h
  split at h
  · exact absurd h (by simp)
  · exact absurd h (by simp)
  · split at h
    · injection h with h
      rw [← h, List.length_set]
    · exact absurd h (by simp)

theorem heapWriteCell_fresh (heap : Heap) (board : Board) (row col : Nat) (v : Option Int) :
    heapWriteCell (heap ++ board) (List.range' heap.length board.length) row col v
      = match writeCell board row col v with
        | .error e => .error e
        | .ok N => .ok (heap ++ N) := by
  unfold heapWriteCell writeCell
  have h := getElem?_fresh heap board row
  by_cases hr : row < board.length
  · have e1 : (List.range' heap.length board.length)[row]? = some (heap.length + row) := by
      rw [List.getElem?_eq_getElem (by simpa using hr)]
      simp
    rw [e1] at h ⊢
    simp only at h
    rw [List.getElem?_eq_getElem hr] at h ⊢
    cases v with
    | none => rfl
    | some x =>
      simp only [h]
      split
      · rw [List.set_append_right _ _ (by omega)]
        simp
      · rfl
  · rw [List.getElem?_eq_none (by simpa using hr), List.getElem?_eq_none (by omega)]

theorem copyRows_eq (heap : Heap) (puzzle : BoardRef) (board : Board)
    (hd : deref heap puzzle = some board) :
    copyRows heap puzzle = some (heap ++ board, List.range' heap.length board.length) := by
  unfold copyRows
  rw [hd]

/-- The move on a store computes the board of `swapWithEmpty` in newly allocated rows
appended to the store. -/
theorem swapWithEmptyInHeap_eq (heap : Heap) (puzzle : BoardRef) (board : Board)
    (hd : deref heap puzzle = some board) (row col : Nat) :
    swapWithEmptyInHeap heap puzzle row col
      = match swapWithEmpty board row col with
        | .error e => .error e
        | .ok N => .ok (heap ++ N, List.range' heap.length board.length) := by
  unfold swapWithEmptyInHeap swapWithEmpty
  rw [hd]
  simp only [List.map_id_fun', id_eq]
  cases hf : findEmptyTile board with
  | error e => rfl
  | ok o =>
    cases o with
    | none => rfl
    | some empty =>
      simp only [copyRows_eq heap puzzle board hd, heapReadCell_fresh]
      cases h1 : readCell board empty.row empty.col with
      | error e => rfl
      | ok fromEmpty =>
        cases h2 : readCell board row col with
        | error e => rfl
        | ok fromTile =>
          simp only [heapWriteCell_fresh]
          cases h3 : writeCell board row col fromEmpty with
          | error e => rfl
          | ok N1 =>
            simp only
            rw [← writeCell_length board N1 row col fromEmpty h3, heapWriteCell_fresh]
            cases h4 : writeCell N1 empty.row empty.col fromTile with
            | error e => rfl
            | ok N => rfl

/-- A write through a `puzzle` array is seen through every array that holds the same row
address: the store does model aliasing. -/
theorem heapWriteCell_seen_through_alias :
    (heapWriteCell [[1, 2, 3], [4, 5, 6], [7, 8, 0]] [0, 1, 2] 2 1 (some 0)).toOption.bind
        (fun heap => deref heap [0, 1, 2])
      = some [[1, 2, 3], [4, 5, 6], [7, 0, 0]] := by
  decide

theorem swapWithEmpty_length (board N : Board) (row col : Nat)
    (h : swapWithEmpty board row col = .ok N) : N.length = board.length := by
  unfold swapWithEmpty at h
  simp only [List.map_id_fun', id_eq] at h
  split at h
  · exact absurd h (by simp)
  · exact absurd h (by simp)
  · split at h
    · exact absurd h (by simp)
    · exact absurd h (by simp)
    · split at h
      · exact absurd h (by simp)
      · rename_i N1 h3
        rw [writeCell_length _ _ _ _ _ h, writeCell_length _ _ _ _ _ h3]

/-- C6: a legal move on a well-formed board with blank at `(qr, qc)`, held in a store of row
arrays, builds a new board `N` in newly allocated rows with `N[row][col] = 0`,
`N[qr][qc] = B[row][col]` and every other cell as in `B`; the input `puzzle` array has the
same contents after the operation as before, and no row object that existed before is
changed: the writes go to the row-by-row copy. -/
theorem C6_move_is_pure_swap (heap : Heap) (puzzle : BoardRef) (board : Board)
    (hd : deref heap puzzle = some board) (hw : WellFormed board) (qr qc : Nat)
    (hq : readCell board qr qc = .ok (some 0)) (row col : Nat) (hr : row < 3) (hc : col < 3)
    (hm : canMove board row col = .ok true) :
    ∃ N heap1 newPuzzle,
      swapWithEmptyInHeap heap puzzle row col = .ok (heap1, newPuzzle) ∧
      deref heap1 newPuzzle = some N ∧
      swapWithEmpty board row col = .ok N ∧
      readCell N row col = .ok (some 0) ∧
      readCell N qr qc = readCell board row col ∧
      (∀ x y, ¬(x = row ∧ y = col) → ¬(x = qr ∧ y = qc) →
        readCell N x y = readCell board x y) ∧
      deref heap1 puzzle = some board ∧
      (∀ a, a < heap.length → heap1[a]? = heap[a]?) := by
  obtain ⟨N, hs, _, _⟩ := swapWithEmpty_preserves board hw row col hr hc hm
  have hf := findEmptyTile_of_blank board hw qr qc hq
  have hcell := swapWithEmpty_cells board N qr qc row col hf hs
  rw [canMove_eq_adjacent board hw qr qc hq] at hm
  injection hm with hm
  have hne := adjacent_ne row col qr qc hm
  have hheap := swapWithEmptyInHeap_eq heap puzzle board hd row col
  rw [hs] at hheap
  refine ⟨N, heap ++ N, List.range' heap.length board.length, hheap, ?_, hs, ?_, ?_, ?_,
    deref_append_left heap N puzzle board hd, ?_⟩
  · rw [← swapWithEmpty_length board N row col hs]
    exact deref_fresh heap N
  · rw [hcell, if_neg hne, if_pos ⟨rfl, rfl⟩, hq]
  · rw [hcell, if_pos ⟨rfl, rfl⟩]
  · intro x y h1 h2
    rw [hcell, if_neg h2, if_neg h1]
  · intro a ha
    exact List.getElem?_append_left ha

/-- Witness for C6: moving the tile 8 of the solved board held in the rows 0, 1, 2 of a
store. -/
theorem C6_move_is_pure_swap_witness :
    ∃ N heap1 newPuzzle,
      swapWithEmptyInHeap [[1, 2, 3], [4, 5, 6], [7, 8, 0]] [0, 1, 2] 2 1
        = .ok (heap1, newPuzzle) ∧
      deref heap1 newPuzzle = some N ∧
      swapWithEmpty solvedBoard 2 1 = .ok N ∧
      readCell N 2 1 = .ok (some 0) ∧
      readCell N 2 2 = readCell solvedBoard 2 1 ∧
      (∀ x y, ¬(x = 2 ∧ y = 1) → ¬(x = 2 ∧ y = 2) →
        readCell N x y = readCell solvedBoard x y) ∧
      deref heap1 [0, 1, 2] = some solvedBoard ∧
      (∀ a, a < ([[1, 2, 3], [4, 5, 6], [7, 8, 0]] : Heap).length →
        heap1[a]? = ([[1, 2, 3], [4, 5, 6], [7, 8, 0]] : Heap)[a]?) :=
  C6_move_is_pure_swap [[1, 2, 3], [4, 5, 6], [7, 8, 0]] [0, 1, 2] solvedBoard (by decide)
    (by decide) 2 2 (by decide) 2 1 (by decide) (by decide) (by decide)

theorem swapWithEmpty_inverse (board : Board) (hw : WellFormed board) (qr qc : Nat)
    (hq : readCell board qr qc = .ok (some 0)) (row col : Nat) (hr : row < 3) (hc : col < 3)
    (hm : canMove board row col = .ok true) :
    ∃ B1, swapWithEmpty board row col = .ok B1 ∧
      readCell B1 qr qc = readCell board row col ∧
      canMove B1 qr qc = .ok true ∧
      swapWithEmpty B1 qr qc = .ok board := by
  obtain ⟨B1, hs, hw1, _⟩ := swapWithEmpty_preserves board hw row col hr hc hm
  have hf := findEmptyTile_of_blank board hw qr qc hq
  have hcell := swapWithEmpty_cells board B1 qr qc row col hf hs
  rw [canMove_eq_adjacent board hw qr qc hq] at hm
  injection hm with hm
  have hne := adjacent_ne row col qr qc hm
  have hq1 : readCell B1 row col = .ok (some 0) := by
    rw [hcell, if_neg hne, if_pos ⟨rfl, rfl⟩, hq]
  have hm1 : canMove B1 qr qc = .ok true := by
    rw [canMove_eq_adjacent B1 hw1 row col hq1, adjacent_symm, hm]
  obtain ⟨hqr, hqc⟩ : qr < 3 ∧ qc < 3 := by
    obtain ⟨a, b, c, d, e, f, g, h, i, rfl, _⟩ := wellFormed_form board hw
    exact readCell_some_bounds _ _ _ _ _ _ _ _ _ _ _ _ hq
  obtain ⟨B2, hs2, hw2, _⟩ := swapWithEmpty_preserves B1 hw1 qr qc hqr hqc hm1
  have hf1 := findEmptyTile_of_blank B1 hw1 row col hq1
  have hcell2 := swapWithEmpty_cells B1 B2 row col qr qc hf1 hs2
  refine ⟨B1, hs, ?_, hm1, ?_⟩
  · rw [hcell, if_pos ⟨rfl, rfl⟩]
  · rw [hs2]
    congr 1
    apply board_ext B2 board hw2 hw
    intro x y _ _
    rw [hcell2]
    by_cases h1 : x = row ∧ y = col
    · rw [if_pos h1, hcell, if_pos ⟨rfl, rfl⟩, h1.1, h1.2]
    · rw [if_neg h1]
      by_cases h2 : x = qr ∧ y = qc
      · rw [if_pos h2, hq1, h2.1, h2.2, hq]
      · rw [if_neg h2, hcell, if_neg h2, if_neg h1]

/-- C7: after a legal move of the tile at `(row, col)` on a well-formed board with blank at
`(qr, qc)`, the tile sits at `(qr, qc)`, it can move again, and moving it gives back the
original board. -/
theorem C7_move_self_inverse (board : Board) (hw : WellFormed board) (qr qc : Nat)
    (hq : readCell board qr qc = .ok (some 0)) (row col : Nat) (hr : row < 3) (hc : col < 3)
    (hm : canMove board row col = .ok true) :
    ∃ B1, swapWithEmpty board row col = .ok B1 ∧
      readCell B1 qr qc = readCell board row col ∧
      canMove B1 qr qc = .ok true ∧
      swapWithEmpty B1 qr qc = .ok board :=
  swapWithEmpty_inverse board hw qr qc hq row col hr hc hm

/-- Witness for C7: the tile 8 of the solved board moved right and back. -/
theorem C7_move_self_inverse_witness :
    ∃ B1, swapWithEmpty solvedBoard 2 1 = .ok B1 ∧
      readCell B1 2 2 = readCell solvedBoard 2 1 ∧
      canMove B1 2 2 = .ok true ∧
      swapWithEmpty B1 2 2 = .ok solvedBoard :=
  C7_move_self_inverse solvedBoard (by decide) 2 2 (by decide) 2 1 (by decide) (by decide)
    (by decide)

/-! ## Solved detection -/

theorem isPuzzleSolved_iff_take (board : Board) :
    isPuzzleSolved board = true ↔ board.flatten.take 9 = [1, 2, 3, 4, 5, 6, 7, 8, 0] := by
  unfold isPuzzleSolved
  generalize board.flatten = l
  rcases l with _ | ⟨x0, _ | ⟨x1, _ | ⟨x2, _ | ⟨x3, _ | ⟨x4, _ | ⟨x5, _ | ⟨x6, _ | ⟨x7, _ |
    ⟨x8, l⟩⟩⟩⟩⟩⟩⟩⟩⟩ <;>
    simp [List.enum, List.enumFrom]

theorem isPuzzleSolved_iff_eq (board : Board) (hw : WellFormed board) :
    isPuzzleSolved board = true ↔ board = solvedBoard := by
  rw [isPuzzleSolved_iff_take]
  obtain ⟨a, b, c, d, e, f, g, h, i, rfl, _⟩ := wellFormed_form board hw
  simp [solvedBoard]
  tauto

/-- C8 as stated fails: a board with a tenth cell passes `isPuzzleSolved` although its
flattening is not the solved sequence. -/
theorem C8_counterexample :
    ¬ (isPuzzleSolved [[1, 2, 3], [4, 5, 6], [7, 8, 0], [9]] = true ↔
        ([[1, 2, 3], [4, 5, 6], [7, 8, 0], [9]] : Board).flatten = [1, 2, 3, 4, 5, 6, 7, 8, 0]) := by
  decide

/-- C8 (amended): `isPuzzleSolved board` is true exactly when the first nine elements of the
row-major flattening are `[1,2,3,4,5,6,7,8,0]`; hence for a board of exactly nine cells
exactly when the flattening equals that sequence.  It is true on the solved board and false
on `[[1,2,3],[4,5,6],[7,0,8]]`. -/
theorem C8_isPuzzleSolved_iff_first_nine (board : Board) :
    (isPuzzleSolved board = true ↔ board.flatten.take 9 = [1, 2, 3, 4, 5, 6, 7, 8, 0]) ∧
      (board.flatten.length = 9 →
        (isPuzzleSolved board = true ↔ board.flatten = [1, 2, 3, 4, 5, 6, 7, 8, 0])) ∧
      isPuzzleSolved [[1, 2, 3], [4, 5, 6], [7, 8, 0]] = true ∧
      isPuzzleSolved [[1, 2, 3], [4, 5, 6], [7, 0, 8]] = false := by
  refine ⟨isPuzzleSolved_iff_take board, ?_, by decide, by decide⟩
  intro h9
  rw [isPuzzleSolved_iff_take, List.take_of_length_le (by omega)]

/-! ## The click handler -/

theorem readCell_ok_of_wellFormed (board : Board) (hw : WellFormed board) (row col : Nat)
    (hr : row < 3) : ∃ cell, readCell board row col = .ok cell := by
  obtain ⟨a, b, c, d, e, f, g, h, i, rfl, _⟩ := wellFormed_form board hw
  interval_cases row <;> exact ⟨_, rfl⟩

theorem handleTileClick_accept (s : GameState) (row col : Nat) (N : Board)
    (hs : s.solved = false) (ha : s.animating = false) (cell : Option Int)
    (hcell : readCell s.puzzle row col = .ok cell) (hnb : cell ≠ some 0)
    (hm : canMove s.puzzle row col = .ok true) (hN : swapWithEmpty s.puzzle row col = .ok N) :
    handleTileClick s row col = .ok (some { s with
      animating := true, puzzle := N, moves := s.moves + 1, timers := s.timers + 1 }) := by
  unfold handleTileClick
  simp [hs, ha, hcell, hnb, hm, hN]

theorem solvedEffect_eq (s : GameState) :
    solvedEffect s = { s with solved := s.solved || isPuzzleSolved s.puzzle } := by
  unfold solvedEffect
  cases h : isPuzzleSolved s.puzzle <;> simp

theorem tileClick_accept (s : GameState) (row col : Nat) (N : Board)
    (hs : s.solved = false) (ha : s.animating = false) (cell : Option Int)
    (hcell : readCell s.puzzle row col = .ok cell) (hnb : cell ≠ some 0)
    (hm : canMove s.puzzle row col = .ok true) (hN : swapWithEmpty s.puzzle row col = .ok N) :
    tileClick s row col = .ok { s with
      animating := true, puzzle := N, moves := s.moves + 1, timers := s.timers + 1,
      solved := s.solved || isPuzzleSolved N } := by
  unfold tileClick
  rw [handleTileClick_accept s row col N hs ha cell hcell hnb hm hN]
  simp only [solvedEffect_eq]

/-- C9: in an unsolved, unlocked session with a well-formed board, a click on a tile that
can move yields the board with the tile and the blank exchanged, one more move, the lock
held, and the solved flag set exactly when the new board is the solved board.  From
`[[1,2,3],[4,5,6],[7,0,8]]` with count 0 the click on `(2, 2)` gives the solved board,
count 1 and solved. -/
theorem C9_accepted_move_postcondition (s : GameState) (hs : s.solved = false)
    (ha : s.animating = false) (hw : WellFormed s.puzzle) (qr qc : Nat)
    (hq : readCell s.puzzle qr qc = .ok (some 0)) (row col : Nat) (hr : row < 3)
    (hc : col < 3) (hnb : readCell s.puzzle row col ≠ .ok (some 0))
    (hm : canMove s.puzzle row col = .ok true) :
    (∃ s1, tileClick s row col = .ok s1 ∧
      swapWithEmpty s.puzzle row col = .ok s1.puzzle ∧
      readCell s1.puzzle row col = .ok (some 0) ∧
      readCell s1.puzzle qr qc = readCell s.puzzle row col ∧
      (∀ x y, ¬(x = row ∧ y = col) → ¬(x = qr ∧ y = qc) →
        readCell s1.puzzle x y = readCell s.puzzle x y) ∧
      s1.moves = s.moves + 1 ∧ s1.animating = true ∧
      (s1.solved = true ↔ s1.puzzle = solvedBoard)) ∧
    tileClick ⟨[[1, 2, 3], [4, 5, 6], [7, 0, 8]], 0, false, false, none, none, 0⟩ 2 2
      = .ok ⟨[[1, 2, 3], [4, 5, 6], [7, 8, 0]], 1, true, true, none, none, 1⟩ := by
  refine ⟨?_, by decide⟩
  obtain ⟨N, hN, hwN, _⟩ := swapWithEmpty_preserves s.puzzle hw row col hr hc hm
  obtain ⟨cell, hcell⟩ := readCell_ok_of_wellFormed s.puzzle hw row col hr
  have hnb2 : cell ≠ some 0 := fun h => hnb (by rw [hcell, h])
  have hf := findEmptyTile_of_blank s.puzzle hw qr qc hq
  have hcells := swapWithEmpty_cells s.puzzle N qr qc row col hf hN
  have hadj := hm
  rw [canMove_eq_adjacent s.puzzle hw qr qc hq] at hadj
  injection hadj with hadj
  have hne := adjacent_ne row col qr qc hadj
  have hclick := tileClick_accept s row col N hs ha cell hcell hnb2 hm hN
  refine ⟨_, hclick, hN, ?_, ?_, ?_, rfl, rfl, ?_⟩
  · show readCell N row col = _
    rw [hcells, if_neg hne, if_pos ⟨rfl, rfl⟩, hq]
  · show readCell N qr qc = _
    rw [hcells, if_pos ⟨rfl, rfl⟩]
  · intro x y h1 h2
    show readCell N x y = _
    rw [hcells, if_neg h2, if_neg h1]
  · show (s.solved || isPuzzleSolved N) = true ↔ N = solvedBoard
    rw [hs, Bool.false_or]
    exact isPuzzleSolved_iff_eq N hwN

/-- Witness for C9: the end-to-end scenario of the specification. -/
theorem C9_accepted_move_postcondition_witness :
    ∃ s1, tileClick ⟨[[1, 2, 3], [4, 5, 6], [7, 0, 8]], 0, false, false, none, none, 0⟩ 2 2
        = .ok s1 ∧
      s1.puzzle = solvedBoard ∧ s1.moves = 1 ∧ s1.animating = true ∧ s1.solved = true := by
  obtain ⟨s1, h1, _, _, _, _, h5, h6, _⟩ :=
    (C9_accepted_move_postcondition
      ⟨[[1, 2, 3], [4, 5, 6], [7, 0, 8]], 0, false, false, none, none, 0⟩ rfl rfl (by decide)
      2 1 (by decide) 2 2 (by decide) (by decide) (by decide) (by decide)).1
  refine ⟨s1, h1, ?_, h5, h6, ?_⟩
  · have e : tileClick ⟨[[1, 2, 3], [4, 5, 6], [7, 0, 8]], 0, false, false, none, none, 0⟩ 2 2
        = .ok ⟨[[1, 2, 3], [4, 5, 6], [7, 8, 0]], 1, true, true, none, none, 1⟩ := by decide
    rw [e] at h1
    injection h1 with h1
    rw [← h1]; rfl
  · have e : tileClick ⟨[[1, 2, 3], [4, 5, 6], [7, 0, 8]], 0, false, false, none, none, 0⟩ 2 2
        = .ok ⟨[[1, 2, 3], [4, 5, 6], [7, 8, 0]], 1, true, true, none, none, 1⟩ := by decide
    rw [e] at h1
    injection h1 with h1
    rw [← h1]

/-- C10: a click is a no-op (the handler returns without calling a setter, so the whole
state, in particular board, move count, solved flag and lock, is unchanged) when the session
is solved, or the lock is held, or the clicked cell holds the blank, or `canMove` is false
on a row of the board, or the board is well-formed and the position is not at Manhattan
distance 1 from the blank; a second click on the same position then leaves the state
unchanged as well. -/
theorem C10_rejected_click_is_noop (s : GameState) (row col : Nat)
    (h : s.solved = true ∨ s.animating = true ∨ readCell s.puzzle row col = .ok (some 0) ∨
      (row < s.puzzle.length ∧ canMove s.puzzle row col = .ok false) ∨
      (WellFormed s.puzzle ∧ row < 3 ∧ ∃ qr qc, readCell s.puzzle qr qc = .ok (some 0) ∧
        ((row : Int) - (qr : Int)).natAbs + ((col : Int) - (qc : Int)).natAbs ≠ 1)) :
    handleTileClick s row col = .ok none ∧ tileClick s row col = .ok s ∧
      (tileClick s row col).bind (fun s1 => tileClick s1 row col) = tileClick s row col := by
  have key : handleTileClick s row col = .ok none := by
    unfold handleTileClick
    by_cases h1 : s.solved = true
    · simp [h1]
    by_cases h2 : s.animating = true
    · simp [h2]
    by_cases h3 : readCell s.puzzle row col = .ok (some 0)
    · simp [h1, h2, h3]
    have h4 : row < s.puzzle.length ∧ canMove s.puzzle row col = .ok false := by
      rcases h with h | h | h | h | ⟨hw, hr, qr, qc, hq, hd⟩
      · exact absurd h h1
      · exact absurd h h2
      · exact absurd h h3
      · exact h
      · refine ⟨by rw [hw.1]; exact hr, ?_⟩
        rw [canMove_eq_adjacent s.puzzle hw qr qc hq]
        cases hadj : adjacent row col ⟨qr, qc⟩
        · rfl
        · exact absurd ((adjacent_iff_manhattan row col qr qc).mp hadj) hd
    have hcell : readCell s.puzzle row col = .ok (s.puzzle[row])[col]? := by
      unfold readCell
      rw [List.getElem?_eq_getElem h4.1]
    rw [hcell] at h3
    have h5 : ¬ (s.puzzle[row])[col]? = some 0 := fun h6 => h3 (by rw [h6])
    simp [h1, h2, hcell, h5, h4.2]
  have k2 : tileClick s row col = .ok s := by
    unfold tileClick
    rw [key]
  refine ⟨key, k2, ?_⟩
  rw [k2]
  exact k2

/-- Witness for C10: a click on the far corner `(0, 0)` of `[[1,2,3],[4,5,6],[7,0,8]]`. -/
theorem C10_rejected_click_is_noop_witness :
    tileClick ⟨[[1, 2, 3], [4, 5, 6], [7, 0, 8]], 0, false, false, none, none, 0⟩ 0 0
      = .ok ⟨[[1, 2, 3], [4, 5, 6], [7, 0, 8]], 0, false, false, none, none, 0⟩ :=
  (C10_rejected_click_is_noop
    ⟨[[1, 2, 3], [4, 5, 6], [7, 0, 8]], 0, false, false, none, none, 0⟩ 0 0
    (Or.inr (Or.inr (Or.inr (Or.inl ⟨by decide, by decide⟩))))).2.1

/-! ## Reachability by legal moves -/

theorem legalMove_wellFormed (B B1 : Board) (hw : WellFormed B) (h : LegalMove B B1) :
    WellFormed B1 ∧ isSolvable B1 = isSolvable B := by
  obtain ⟨row, col, hr, hc, hm, hs⟩ := h
  obtain ⟨N, hN, hwN, hsol⟩ := swapWithEmpty_preserves B hw row col hr hc hm
  rw [hs] at hN
  injection hN with hN
  subst hN
  exact ⟨hwN, hsol⟩

theorem legalMove_symm (B B1 : Board) (hw : WellFormed B) (h : LegalMove B B1) :
    LegalMove B1 B := by
  obtain ⟨row, col, hr, hc, hm, hs⟩ := h
  obtain ⟨qr, qc, hqr, hqc, hq⟩ := exists_blank B hw
  obtain ⟨N, hN, _, hm1, hback⟩ := swapWithEmpty_inverse B hw qr qc hq row col hr hc hm
  rw [hs] at hN
  injection hN with hN
  subst hN
  exact ⟨qr, qc, hqr, hqc, hm1, hback⟩

theorem reach_wellFormed (B C : Board) (hw : WellFormed B)
    (h : Relation.ReflTransGen LegalMove B C) :
    WellFormed C ∧ isSolvable C = isSolvable B := by
  induction h with
  | refl => exact ⟨hw, rfl⟩
  | tail _ hstep ih =>
    obtain ⟨h1, h2⟩ := legalMove_wellFormed _ _ ih.1 hstep
    exact ⟨h1, h2.trans ih.2⟩

theorem reach_symm (B C : Board) (hw : WellFormed B)
    (h : Relation.ReflTransGen LegalMove B C) : Relation.ReflTransGen LegalMove C B := by
  induction h with
  | refl => exact Relation.ReflTransGen.refl
  | tail hreach hstep ih =>
    have hwb := (reach_wellFormed _ _ hw hreach).1
    exact Relation.ReflTransGen.head (legalMove_symm _ _ hwb hstep) ih

theorem flatten_ofFlat (l : List Int) (h : l.length = 9) : (ofFlat l).flatten = l := by
  obtain ⟨a, b, c, d, e, f, g, h, i, rfl⟩ := eq_of_length_nine l h
  rfl

theorem ofFlat_flatten (B : Board) (hw : WellFormed B) : ofFlat B.flatten = B := by
  obtain ⟨a, b, c, d, e, f, g, h, i, rfl, _⟩ := wellFormed_form B hw
  rfl

set_option maxHeartbeats 1000000 in
theorem swapWithEmpty_flat (board : Board) (hw : WellFormed board) (qr qc : Nat)
    (hq : readCell board qr qc = .ok (some 0)) (row col : Nat) (hr : row < 3) (hc : col < 3)
    (hadj : adjacent row col ⟨qr, qc⟩ = true) :
    swapWithEmpty board row col
      = .ok (ofFlat (swapAt board.flatten (3 * row + col) (3 * qr + qc))) := by
  rw [swapWithEmpty_eq board qr qc row col (findEmptyTile_of_blank board hw qr qc hq)]
  obtain ⟨a, b, c, d, e, f, g, h, i, rfl, hp⟩ := wellFormed_form board hw
  obtain ⟨hqr, hqc⟩ := readCell_some_bounds _ _ _ _ _ _ _ _ _ _ _ _ hq
  interval_cases qr <;> interval_cases qc <;> interval_cases row <;> interval_cases col <;>
    first
    | exact absurd hadj (by decide)
    | (simp only [readCell, List.getElem?_cons_zero, List.getElem?_cons_succ, Except.ok.injEq,
        Option.some.injEq] at hq
       subst hq
       rfl)

theorem reach_of_path (path : List Nat) (B : Board) (q : Nat) (hw : WellFormed B)
    (hq9 : q < 9) (hq : readCell B (q / 3) (q % 3) = .ok (some 0))
    (hv : validPath q path = true) :
    Relation.ReflTransGen LegalMove B (ofFlat (slidePath B.flatten q path)) := by
  induction path generalizing B q with
  | nil =>
    rw [slidePath, ofFlat_flatten B hw]
  | cons p rest ih =>
    simp only [validPath, Bool.and_eq_true, decide_eq_true_eq] at hv
    obtain ⟨⟨hp9, hadj⟩, hrest⟩ := hv
    have hr : p / 3 < 3 := by omega
    have hc : p % 3 < 3 := by omega
    have hstep := swapWithEmpty_flat B hw (q / 3) (q % 3) hq (p / 3) (p % 3) hr hc hadj
    have e1 : 3 * (p / 3) + p % 3 = p := by omega
    have e2 : 3 * (q / 3) + q % 3 = q := by omega
    rw [e1, e2] at hstep
    have hm : canMove B (p / 3) (p % 3) = .ok true := by
      rw [canMove_eq_adjacent B hw (q / 3) (q % 3) hq]
      exact congrArg Except.ok hadj
    have hlegal : LegalMove B (ofFlat (swapAt B.flatten p q)) :=
      ⟨p / 3, p % 3, hr, hc, hm, hstep⟩
    have hw1 := (legalMove_wellFormed _ _ hw hlegal).1
    have hcell := swapWithEmpty_cells B _ (q / 3) (q % 3) (p / 3) (p % 3)
      (findEmptyTile_of_blank B hw _ _ hq) hstep (p / 3) (p % 3)
    have hne := adjacent_ne _ _ _ _ hadj
    rw [if_neg hne, if_pos ⟨rfl, rfl⟩, hq] at hcell
    have hlen : (swapAt B.flatten p q).length = 9 := by
      rw [swapAt_length]
      exact hw.2.2.length_eq
    have := ih (ofFlat (swapAt B.flatten p q)) p hw1 hp9 hcell hrest
    rw [flatten_ofFlat _ hlen] at this
    exact Relation.ReflTransGen.head hlegal this
/-- From every well-formed board the blank can be brought to the bottom right corner. -/
theorem reach_corner (B : Board) (hw : WellFormed B) :
    ∃ x0 x1 x2 x3 x4 x5 x6 x7 : Int, Relation.ReflTransGen LegalMove B
      [[x0, x1, x2], [x3, x4, x5], [x6, x7, 0]] := by
  obtain ⟨qr, qc, hqr, hqc, hq⟩ := exists_blank B hw
  obtain ⟨a, b, c, d, e, f, g, h, i, rfl, _⟩ := wellFormed_form B hw
  interval_cases qr <;> interval_cases qc <;>
    simp only [readCell, List.getElem?_cons_zero, List.getElem?_cons_succ, Except.ok.injEq,
      Option.some.injEq] at hq <;>
    subst hq
  · have hreach := reach_of_path [1, 2, 5, 8] _ 0 hw (by decide) rfl (by decide)
    simp only [List.flatten_cons, List.flatten_nil, List.cons_append, List.nil_append,
      List.append_nil, slidePath, swapAt, List.set_cons_succ, List.set_cons_zero,
      List.getD_cons_succ, List.getD_cons_zero, ofFlat, sliceOf, List.drop_succ_cons,
      List.drop_zero, List.take_succ_cons, List.take_zero, Nat.reduceSub] at hreach
    exact ⟨_, _, _, _, _, _, _, _, hreach⟩
  · have hreach := reach_of_path [2, 5, 8] _ 1 hw (by decide) rfl (by decide)
    simp only [List.flatten_cons, List.flatten_nil, List.cons_append, List.nil_append,
      List.append_nil, slidePath, swapAt, List.set_cons_succ, List.set_cons_zero,
      List.getD_cons_succ, List.getD_cons_zero, ofFlat, sliceOf, List.drop_succ_cons,
      List.drop_zero, List.take_succ_cons, List.take_zero, Nat.reduceSub] at hreach
    exact ⟨_, _, _, _, _, _, _, _, hreach⟩
  · have hreach := reach_of_path [5, 8] _ 2 hw (by decide) rfl (by decide)
    simp only [List.flatten_cons, List.flatten_nil, List.cons_append, List.nil_append,
      List.append_nil, slidePath, swapAt, List.set_cons_succ, List.set_cons_zero,
      List.getD_cons_succ, List.getD_cons_zero, ofFlat, sliceOf, List.drop_succ_cons,
      List.drop_zero, List.take_succ_cons, List.take_zero, Nat.reduceSub] at hreach
    exact ⟨_, _, _, _, _, _, _, _, hreach⟩
  · have hreach := reach_of_path [4, 5, 8] _ 3 hw (by decide) rfl (by decide)
    simp only [List.flatten_cons, List.flatten_nil, List.cons_append, List.nil_append,
      List.append_nil, slidePath, swapAt, List.set_cons_succ, List.set_cons_zero,
      List.getD_cons_succ, List.getD_cons_zero, ofFlat, sliceOf, List.drop_succ_cons,
      List.drop_zero, List.take_succ_cons, List.take_zero, Nat.reduceSub] at hreach
    exact ⟨_, _, _, _, _, _, _, _, hreach⟩
  · have hreach := reach_of_path [5, 8] _ 4 hw (by decide) rfl (by decide)
    simp only [List.flatten_cons, List.flatten_nil, List.cons_append, List.nil_append,
      List.append_nil, slidePath, swapAt, List.set_cons_succ, List.set_cons_zero,
      List.getD_cons_succ, List.getD_cons_zero, ofFlat, sliceOf, List.drop_succ_cons,
      List.drop_zero, List.take_succ_cons, List.take_zero, Nat.reduceSub] at hreach
    exact ⟨_, _, _, _, _, _, _, _, hreach⟩
  · have hreach := reach_of_path [8] _ 5 hw (by decide) rfl (by decide)
    simp only [List.flatten_cons, List.flatten_nil, List.cons_append, List.nil_append,
      List.append_nil, slidePath, swapAt, List.set_cons_succ, List.set_cons_zero,
      List.getD_cons_succ, List.getD_cons_zero, ofFlat, sliceOf, List.drop_succ_cons,
      List.drop_zero, List.take_succ_cons, List.take_zero, Nat.reduceSub] at hreach
    exact ⟨_, _, _, _, _, _, _, _, hreach⟩
  · have hreach := reach_of_path [7, 8] _ 6 hw (by decide) rfl (by decide)
    simp only [List.flatten_cons, List.flatten_nil, List.cons_append, List.nil_append,
      List.append_nil, slidePath, swapAt, List.set_cons_succ, List.set_cons_zero,
      List.getD_cons_succ, List.getD_cons_zero, ofFlat, sliceOf, List.drop_succ_cons,
      List.drop_zero, List.take_succ_cons, List.take_zero, Nat.reduceSub] at hreach
    exact ⟨_, _, _, _, _, _, _, _, hreach⟩
  · have hreach := reach_of_path [8] _ 7 hw (by decide) rfl (by decide)
    simp only [List.flatten_cons, List.flatten_nil, List.cons_append, List.nil_append,
      List.append_nil, slidePath, swapAt, List.set_cons_succ, List.set_cons_zero,
      List.getD_cons_succ, List.getD_cons_zero, ofFlat, sliceOf, List.drop_succ_cons,
      List.drop_zero, List.take_succ_cons, List.take_zero, Nat.reduceSub] at hreach
    exact ⟨_, _, _, _, _, _, _, _, hreach⟩
  · exact ⟨_, _, _, _, _, _, _, _, Relation.ReflTransGen.refl⟩

/-- With the blank in the corner, the tile `1` can be
brought to its cell by legal moves that end with the blank in the corner. -/
theorem reach_stage0 (x0 x1 x2 x3 x4 x5 x6 x7 : Int)
    (hw : WellFormed [[x0, x1, x2], [x3, x4, x5], [x6, x7, 0]]) :
    ∃ y1 y2 y3 y4 y5 y6 y7 : Int, Relation.ReflTransGen LegalMove
      [[x0, x1, x2], [x3, x4, x5], [x6, x7, 0]]
      [[1, y1, y2], [y3, y4, y5], [y6, y7, 0]] := by
  have hmem : (1 : Int) ∈ [x0, x1, x2, x3, x4, x5, x6, x7, 0] :=
    hw.2.2.mem_iff.mpr (by decide)
  simp only [List.mem_cons, List.mem_singleton, List.not_mem_nil, or_false] at hmem
  rcases hmem with rfl | rfl | rfl | rfl | rfl | rfl | rfl | rfl | h
  · exact ⟨_, _, _, _, _, _, _, Relation.ReflTransGen.refl⟩
  · have hreach := reach_of_path [5, 4, 3, 0, 1, 4, 7, 8] _ 8 hw (by decide) rfl (by decide)
    simp only [List.flatten_cons, List.flatten_nil, List.cons_append, List.nil_append,
      List.append_nil, slidePath, swapAt, List.set_cons_succ, List.set_cons_zero,
      List.getD_cons_succ, List.getD_cons_zero, ofFlat, sliceOf, List.drop_succ_cons,
      List.drop_zero, List.take_succ_cons, List.take_zero, Nat.reduceSub] at hreach
    exact ⟨_, _, _, _, _, _, _, hreach⟩
  · have hreach := reach_of_path [5, 4, 1, 2, 5, 4, 3, 0, 1, 4, 7, 8] _ 8 hw (by decide) rfl (by decide)
    simp only [List.flatten_cons, List.flatten_nil, List.cons_append, List.nil_append,
      List.append_nil, slidePath, swapAt, List.set_cons_succ, List.set_cons_zero,
      List.getD_cons_succ, List.getD_cons_zero, ofFlat, sliceOf, List.drop_succ_cons,
      List.drop_zero, List.take_succ_cons, List.take_zero, Nat.reduceSub] at hreach
    exact ⟨_, _, _, _, _, _, _, hreach⟩
  · have hreach := reach_of_path [5, 2, 1, 0, 3, 6, 7, 8] _ 8 hw (by decide) rfl (by decide)
    simp only [List.flatten_cons, List.flatten_nil, List.cons_append, List.nil_append,
      List.append_nil, slidePath, swapAt, List.set_cons_succ, List.set_cons_zero,
      List.getD_cons_succ, List.getD_cons_zero, ofFlat, sliceOf, List.drop_succ_cons,
      List.drop_zero, List.take_succ_cons, List.take_zero, Nat.reduceSub] at hreach
    exact ⟨_, _, _, _, _, _, _, hreach⟩
  · have hreach := reach_of_path [5, 2, 1, 4, 3, 0, 1, 4, 7, 8] _ 8 hw (by decide) rfl (by decide)
    simp only [List.flatten_cons, List.flatten_nil, List.cons_append, List.nil_append,
      List.append_nil, slidePath, swapAt, List.set_cons_succ, List.set_cons_zero,
      List.getD_cons_succ, List.getD_cons_zero, ofFlat, sliceOf, List.drop_succ_cons,
      List.drop_zero, List.take_succ_cons, List.take_zero, Nat.reduceSub] at hreach
    exact ⟨_, _, _, _, _, _, _, hreach⟩
  · have hreach := reach_of_path [7, 4, 5, 2, 1, 4, 3, 0, 1, 4, 7, 8] _ 8 hw (by decide) rfl (by decide)
    simp only [List.flatten_cons, List.flatten_nil, List.cons_append, List.nil_append,
      List.append_nil, slidePath, swapAt, List.set_cons_succ, List.set_cons_zero,
      List.getD_cons_succ, List.getD_cons_zero, ofFlat, sliceOf, List.drop_succ_cons,
      List.drop_zero, List.take_succ_cons, List.take_zero, Nat.reduceSub] at hreach
    exact ⟨_, _, _, _, _, _, _, hreach⟩
  · have hreach := reach_of_path [5, 4, 3, 6, 7, 4, 1, 0, 3, 6, 7, 8] _ 8 hw (by decide) rfl (by decide)
    simp only [List.flatten_cons, List.flatten_nil, List.cons_append, List.nil_append,
      List.append_nil, slidePath, swapAt, List.set_cons_succ, List.set_cons_zero,
      List.getD_cons_succ, List.getD_cons_zero, ofFlat, sliceOf, List.drop_succ_cons,
      List.drop_zero, List.take_succ_cons, List.take_zero, Nat.reduceSub] at hreach
    exact ⟨_, _, _, _, _, _, _, hreach⟩
  · have hreach := reach_of_path [5, 4, 7, 6, 3, 4, 1, 0, 3, 6, 7, 8] _ 8 hw (by decide) rfl (by decide)
    simp only [List.flatten_cons, List.flatten_nil, List.cons_append, List.nil_append,
      List.append_nil, slidePath, swapAt, List.set_cons_succ, List.set_cons_zero,
      List.getD_cons_succ, List.getD_cons_zero, ofFlat, sliceOf, List.drop_succ_cons,
      List.drop_zero, List.take_succ_cons, List.take_zero, Nat.reduceSub] at hreach
    exact ⟨_, _, _, _, _, _, _, hreach⟩
  · exact absurd h (by decide)

/-- With the tiles `1..1` in place and the blank in the corner, the tile `2` can be
brought to its cell by legal moves that end with the blank in the corner. -/
theorem reach_stage1 (x1 x2 x3 x4 x5 x6 x7 : Int)
    (hw : WellFormed [[1, x1, x2], [x3, x4, x5], [x6, x7, 0]]) :
    ∃ y2 y3 y4 y5 y6 y7 : Int, Relation.ReflTransGen LegalMove
      [[1, x1, x2], [x3, x4, x5], [x6, x7, 0]]
      [[1, 2, y2], [y3, y4, y5], [y6, y7, 0]] := by
  have hmem : (2 : Int) ∈ [1, x1, x2, x3, x4, x5, x6, x7, 0] :=
    hw.2.2.mem_iff.mpr (by decide)
  simp only [List.mem_cons, List.mem_singleton, List.not_mem_nil, or_false] at hmem
  rcases hmem with h | rfl | rfl | rfl | rfl | rfl | rfl | rfl | h
  · exact absurd h (by decide)
  · exact ⟨_, _, _, _, _, _, Relation.ReflTransGen.refl⟩
  · have hreach := reach_of_path [5, 4, 1, 2, 5, 8] _ 8 hw (by decide) rfl (by decide)
    simp only [List.flatten_cons, List.flatten_nil, List.cons_append, List.nil_append,
      List.append_nil, slidePath, swapAt, List.set_cons_succ, List.set_cons_zero,
      List.getD_cons_succ, List.getD_cons_zero, ofFlat, sliceOf, List.drop_succ_cons,
      List.drop_zero, List.take_succ_cons, List.take_zero, Nat.reduceSub] at hreach
    exact ⟨_, _, _, _, _, _, hreach⟩
  · have hreach := reach_of_path [5, 4, 3, 6, 7, 8, 5, 2, 1, 4, 7, 8] _ 8 hw (by decide) rfl (by decide)
    simp only [List.flatten_cons, List.flatten_nil, List.cons_append, List.nil_append,
      List.append_nil, slidePath, swapAt, List.set_cons_succ, List.set_cons_zero,
      List.getD_cons_succ, List.getD_cons_zero, ofFlat, sliceOf, List.drop_succ_cons,
      List.drop_zero, List.take_succ_cons, List.take_zero, Nat.reduceSub] at hreach
    exact ⟨_, _, _, _, _, _, hreach⟩
  · have hreach := reach_of_path [5, 2, 1, 4, 7, 8] _ 8 hw (by decide) rfl (by decide)
    simp only [List.flatten_cons, List.flatten_nil, List.cons_append, List.nil_append,
      List.append_nil, slidePath, swapAt, List.set_cons_succ, List.set_cons_zero,
      List.getD_cons_succ, List.getD_cons_zero, ofFlat, sliceOf, List.drop_succ_cons,
      List.drop_zero, List.take_succ_cons, List.take_zero, Nat.reduceSub] at hreach
    exact ⟨_, _, _, _, _, _, hreach⟩
  · have hreach := reach_of_path [7, 4, 5, 2, 1, 4, 7, 8] _ 8 hw (by decide) rfl (by decide)
    simp only [List.flatten_cons, List.flatten_nil, List.cons_append, List.nil_append,
      List.append_nil, slidePath, swapAt, List.set_cons_succ, List.set_cons_zero,
      List.getD_cons_succ, List.getD_cons_zero, ofFlat, sliceOf, List.drop_succ_cons,
      List.drop_zero, List.take_succ_cons, List.take_zero, Nat.reduceSub] at hreach
    exact ⟨_, _, _, _, _, _, hreach⟩
  · have hreach := reach_of_path [7, 6, 3, 4, 7, 8, 5, 2, 1, 4, 7, 8] _ 8 hw (by decide) rfl (by decide)
    simp only [List.flatten_cons, List.flatten_nil, List.cons_append, List.nil_append,
      List.append_nil, slidePath, swapAt, List.set_cons_succ, List.set_cons_zero,
      List.getD_cons_succ, List.getD_cons_zero, ofFlat, sliceOf, List.drop_succ_cons,
      List.drop_zero, List.take_succ_cons, List.take_zero, Nat.reduceSub] at hreach
    exact ⟨_, _, _, _, _, _, hreach⟩
  · have hreach := reach_of_path [5, 4, 7, 8, 5, 2, 1, 4, 7, 8] _ 8 hw (by decide) rfl (by decide)
    simp only [List.flatten_cons, List.flatten_nil, List.cons_append, List.nil_append,
      List.append_nil, slidePath, swapAt, List.set_cons_succ, List.set_cons_zero,
      List.getD_cons_succ, List.getD_cons_zero, ofFlat, sliceOf, List.drop_succ_cons,
      List.drop_zero, List.take_succ_cons, List.take_zero, Nat.reduceSub] at hreach
    exact ⟨_, _, _, _, _, _, hreach⟩
  · exact absurd h (by decide)

/-- With the tiles `1..2` in place and the blank in the corner, the tile `3` can be
brought to its cell by legal moves that end with the blank in the corner. -/
theorem reach_stage2 (x2 x3 x4 x5 x6 x7 : Int)
    (hw : WellFormed [[1, 2, x2], [x3, x4, x5], [x6, x7, 0]]) :
    ∃ y3 y4 y5 y6 y7 : Int, Relation.ReflTransGen LegalMove
      [[1, 2, x2], [x3, x4, x5], [x6, x7, 0]]
      [[1, 2, 3], [y3, y4, y5], [y6, y7, 0]] := by
  have hmem : (3 : Int) ∈ [1, 2, x2, x3, x4, x5, x6, x7, 0] :=
    hw.2.2.mem_iff.mpr (by decide)
  simp only [List.mem_cons, List.mem_singleton, List.not_mem_nil, or_false] at hmem
  rcases hmem with h | h | rfl | rfl | rfl | rfl | rfl | rfl | h
  · exact absurd h (by decide)
  · exact absurd h (by decide)
  · exact ⟨_, _, _, _, _, Relation.ReflTransGen.refl⟩
  · have hreach := reach_of_path [5, 2, 1, 4, 3, 6, 7, 8, 5, 4, 1, 2, 5, 8] _ 8 hw (by decide) rfl (by decide)
    simp only [List.flatten_cons, List.flatten_nil, List.cons_append, List.nil_append,
      List.append_nil, slidePath, swapAt, List.set_cons_succ, List.set_cons_zero,
      List.getD_cons_succ, List.getD_cons_zero, ofFlat, sliceOf, List.drop_succ_cons,
      List.drop_zero, List.take_succ_cons, List.take_zero, Nat.reduceSub] at hreach
    exact ⟨_, _, _, _, _, hreach⟩
  · have hreach := reach_of_path [5, 4, 3, 0, 1, 2, 5, 4, 1, 0, 3, 6, 7, 8] _ 8 hw (by decide) rfl (by decide)
    simp only [List.flatten_cons, List.flatten_nil, List.cons_append, List.nil_append,
      List.append_nil, slidePath, swapAt, List.set_cons_succ, List.set_cons_zero,
      List.getD_cons_succ, List.getD_cons_zero, ofFlat, sliceOf, List.drop_succ_cons,
      List.drop_zero, List.take_succ_cons, List.take_zero, Nat.reduceSub] at hreach
    exact ⟨_, _, _, _, _, hreach⟩
  · have hreach := reach_of_path [5, 2, 1, 4, 5, 8, 7, 4, 1, 2, 5, 8] _ 8 hw (by decide) rfl (by decide)
    simp only [List.flatten_cons, List.flatten_nil, List.cons_append, List.nil_append,
      List.append_nil, slidePath, swapAt, List.set_cons_succ, List.set_cons_zero,
      List.getD_cons_succ, List.getD_cons_zero, ofFlat, sliceOf, List.drop_succ_cons,
      List.drop_zero, List.take_succ_cons, List.take_zero, Nat.reduceSub] at hreach
    exact ⟨_, _, _, _, _, hreach⟩
  · have hreach := reach_of_path [5, 2, 1, 4, 7, 6, 3, 4, 7, 8, 5, 4, 1, 2, 5, 8] _ 8 hw (by decide) rfl (by decide)
    simp only [List.flatten_cons, List.flatten_nil, List.cons_append, List.nil_append,
      List.append_nil, slidePath, swapAt, List.set_cons_succ, List.set_cons_zero,
      List.getD_cons_succ, List.getD_cons_zero, ofFlat, sliceOf, List.drop_succ_cons,
      List.drop_zero, List.take_succ_cons, List.take_zero, Nat.reduceSub] at hreach
    exact ⟨_, _, _, _, _, hreach⟩
  · have hreach := reach_of_path [5, 2, 1, 4, 7, 8, 5, 4, 1, 2, 5, 8] _ 8 hw (by decide) rfl (by decide)
    simp only [List.flatten_cons, List.flatten_nil, List.cons_append, List.nil_append,
      List.append_nil, slidePath, swapAt, List.set_cons_succ, List.set_cons_zero,
      List.getD_cons_succ, List.getD_cons_zero, ofFlat, sliceOf, List.drop_succ_cons,
      List.drop_zero, List.take_succ_cons, List.take_zero, Nat.reduceSub] at hreach
    exact ⟨_, _, _, _, _, hreach⟩
  · exact absurd h (by decide)

/-- With the tiles `1..3` in place and the blank in the corner, the tile `4` can be
brought to its cell by legal moves that end with the blank in the corner. -/
theorem reach_stage3 (x3 x4 x5 x6 x7 : Int)
    (hw : WellFormed [[1, 2, 3], [x3, x4, x5], [x6, x7, 0]]) :
    ∃ y4 y5 y6 y7 : Int, Relation.ReflTransGen LegalMove
      [[1, 2, 3], [x3, x4, x5], [x6, x7, 0]]
      [[1, 2, 3], [4, y4, y5], [y6, y7, 0]] := by
  have hmem : (4 : Int) ∈ [1, 2, 3, x3, x4, x5, x6, x7, 0] :=
    hw.2.2.mem_iff.mpr (by decide)
  simp only [List.mem_cons, List.mem_singleton, List.not_mem_nil, or_false] at hmem
  rcases hmem with h | h | h | rfl | rfl | rfl | rfl | rfl | h
  · exact absurd h (by decide)
  · exact absurd h (by decide)
  · exact absurd h (by decide)
  · exact ⟨_, _, _, _, Relation.ReflTransGen.refl⟩
  · have hreach := reach_of_path [7, 6, 3, 4, 7, 8] _ 8 hw (by decide) rfl (by decide)
    simp only [List.flatten_cons, List.flatten_nil, List.cons_append, List.nil_append,
      List.append_nil, slidePath, swapAt, List.set_cons_succ, List.set_cons_zero,
      List.getD_cons_succ, List.getD_cons_zero, ofFlat, sliceOf, List.drop_succ_cons,
      List.drop_zero, List.take_succ_cons, List.take_zero, Nat.reduceSub] at hreach
    exact ⟨_, _, _, _, hreach⟩
  · have hreach := reach_of_path [7, 4, 5, 8, 7, 6, 3, 4, 7, 8] _ 8 hw (by decide) rfl (by decide)
    simp only [List.flatten_cons, List.flatten_nil, List.cons_append, List.nil_append,
      List.append_nil, slidePath, swapAt, List.set_cons_succ, List.set_cons_zero,
      List.getD_cons_succ, List.getD_cons_zero, ofFlat, sliceOf, List.drop_succ_cons,
      List.drop_zero, List.take_succ_cons, List.take_zero, Nat.reduceSub] at hreach
    exact ⟨_, _, _, _, hreach⟩
  · have hreach := reach_of_path [5, 4, 3, 6, 7, 8] _ 8 hw (by decide) rfl (by decide)
    simp only [List.flatten_cons, List.flatten_nil, List.cons_append, List.nil_append,
      List.append_nil, slidePath, swapAt, List.set_cons_succ, List.set_cons_zero,
      List.getD_cons_succ, List.getD_cons_zero, ofFlat, sliceOf, List.drop_succ_cons,
      List.drop_zero, List.take_succ_cons, List.take_zero, Nat.reduceSub] at hreach
    exact ⟨_, _, _, _, hreach⟩
  · have hreach := reach_of_path [5, 4, 7, 6, 3, 4, 7, 8] _ 8 hw (by decide) rfl (by decide)
    simp only [List.flatten_cons, List.flatten_nil, List.cons_append, List.nil_append,
      List.append_nil, slidePath, swapAt, List.set_cons_succ, List.set_cons_zero,
      List.getD_cons_succ, List.getD_cons_zero, ofFlat, sliceOf, List.drop_succ_cons,
      List.drop_zero, List.take_succ_cons, List.take_zero, Nat.reduceSub] at hreach
    exact ⟨_, _, _, _, hreach⟩
  · exact absurd h (by decide)

/-- With the tiles `1..4` in place and the blank in the corner, the tile `5` can be
brought to its cell by legal moves that end with the blank in the corner. -/
theorem reach_stage4 (x4 x5 x6 x7 : Int)
    (hw : WellFormed [[1, 2, 3], [4, x4, x5], [x6, x7, 0]]) :
    ∃ y5 y6 y7 : Int, Relation.ReflTransGen LegalMove
      [[1, 2, 3], [4, x4, x5], [x6, x7, 0]]
      [[1, 2, 3], [4, 5, y5], [y6, y7, 0]] := by
  have hmem : (5 : Int) ∈ [1, 2, 3, 4, x4, x5, x6, x7, 0] :=
    hw.2.2.mem_iff.mpr (by decide)
  simp only [List.mem_cons, List.mem_singleton, List.not_mem_nil, or_false] at hmem
  rcases hmem with h | h | h | h | rfl | rfl | rfl | rfl | h
  · exact absurd h (by decide)
  · exact absurd h (by decide)
  · exact absurd h (by decide)
  · exact absurd h (by decide)
  · exact ⟨_, _, _, Relation.ReflTransGen.refl⟩
  · have hreach := reach_of_path [7, 4, 5, 8] _ 8 hw (by decide) rfl (by decide)
    simp only [List.flatten_cons, List.flatten_nil, List.cons_append, List.nil_append,
      List.append_nil, slidePath, swapAt, List.set_cons_succ, List.set_cons_zero,
      List.getD_cons_succ, List.getD_cons_zero, ofFlat, sliceOf, List.drop_succ_cons,
      List.drop_zero, List.take_succ_cons, List.take_zero, Nat.reduceSub] at hreach
    exact ⟨_, _, _, hreach⟩
  · have hreach := reach_of_path [5, 2, 1, 0, 3, 6, 7, 4, 3, 0, 1, 2, 5, 8] _ 8 hw (by decide) rfl (by decide)
    simp only [List.flatten_cons, List.flatten_nil, List.cons_append, List.nil_append,
      List.append_nil, slidePath, swapAt, List.set_cons_succ, List.set_cons_zero,
      List.getD_cons_succ, List.getD_cons_zero, ofFlat, sliceOf, List.drop_succ_cons,
      List.drop_zero, List.take_succ_cons, List.take_zero, Nat.reduceSub] at hreach
    exact ⟨_, _, _, hreach⟩
  · have hreach := reach_of_path [5, 4, 7, 8] _ 8 hw (by decide) rfl (by decide)
    simp only [List.flatten_cons, List.flatten_nil, List.cons_append, List.nil_append,
      List.append_nil, slidePath, swapAt, List.set_cons_succ, List.set_cons_zero,
      List.getD_cons_succ, List.getD_cons_zero, ofFlat, sliceOf, List.drop_succ_cons,
      List.drop_zero, List.take_succ_cons, List.take_zero, Nat.reduceSub] at hreach
    exact ⟨_, _, _, hreach⟩
  · exact absurd h (by decide)

/-- With the tiles `1..5` in place and the blank in the corner, the tile `6` can be
brought to its cell by legal moves that end with the blank in the corner. -/
theorem reach_stage5 (x5 x6 x7 : Int)
    (hw : WellFormed [[1, 2, 3], [4, 5, x5], [x6, x7, 0]]) :
    ∃ y6 y7 : Int, Relation.ReflTransGen LegalMove
      [[1, 2, 3], [4, 5, x5], [x6, x7, 0]]
      [[1, 2, 3], [4, 5, 6], [y6, y7, 0]] := by
  have hmem : (6 : Int) ∈ [1, 2, 3, 4, 5, x5, x6, x7, 0] :=
    hw.2.2.mem_iff.mpr (by decide)
  simp only [List.mem_cons, List.mem_singleton, List.not_mem_nil, or_false] at hmem
  rcases hmem with h | h | h | h | h | rfl | rfl | rfl | h
  · exact absurd h (by decide)
  · exact absurd h (by decide)
  · exact absurd h (by decide)
  · exact absurd h (by decide)
  · exact absurd h (by decide)
  · exact ⟨_, _, Relation.ReflTransGen.refl⟩
  · have hreach := reach_of_path [7, 6, 3, 4, 7, 8, 5, 4, 3, 6, 7, 8] _ 8 hw (by decide) rfl (by decide)
    simp only [List.flatten_cons, List.flatten_nil, List.cons_append, List.nil_append,
      List.append_nil, slidePath, swapAt, List.set_cons_succ, List.set_cons_zero,
      List.getD_cons_succ, List.getD_cons_zero, ofFlat, sliceOf, List.drop_succ_cons,
      List.drop_zero, List.take_succ_cons, List.take_zero, Nat.reduceSub] at hreach
    exact ⟨_, _, hreach⟩
  · have hreach := reach_of_path [7, 6, 3, 4, 5, 8, 7, 4, 3, 6, 7, 8] _ 8 hw (by decide) rfl (by decide)
    simp only [List.flatten_cons, List.flatten_nil, List.cons_append, List.nil_append,
      List.append_nil, slidePath, swapAt, List.set_cons_succ, List.set_cons_zero,
      List.getD_cons_succ, List.getD_cons_zero, ofFlat, sliceOf, List.drop_succ_cons,
      List.drop_zero, List.take_succ_cons, List.take_zero, Nat.reduceSub] at hreach
    exact ⟨_, _, hreach⟩
  · exact absurd h (by decide)

/-- Every solvable well-formed board can be brought to the solved board by legal moves. -/
theorem reach_solved_of_solvable (B : Board) (hw : WellFormed B)
    (hs : isSolvable B = true) : Relation.ReflTransGen LegalMove B solvedBoard := by
  obtain ⟨a0, a1, a2, a3, a4, a5, a6, a7, h0⟩ := reach_corner B hw
  have w0 := reach_wellFormed _ _ hw h0
  obtain ⟨b1, b2, b3, b4, b5, b6, b7, h1⟩ := reach_stage0 a0 a1 a2 a3 a4 a5 a6 a7 w0.1
  have w1 := reach_wellFormed _ _ w0.1 h1
  obtain ⟨c2, c3, c4, c5, c6, c7, h2⟩ := reach_stage1 b1 b2 b3 b4 b5 b6 b7 w1.1
  have w2 := reach_wellFormed _ _ w1.1 h2
  obtain ⟨d3, d4, d5, d6, d7, h3⟩ := reach_stage2 c2 c3 c4 c5 c6 c7 w2.1
  have w3 := reach_wellFormed _ _ w2.1 h3
  obtain ⟨e4, e5, e6, e7, h4⟩ := reach_stage3 d3 d4 d5 d6 d7 w3.1
  have w4 := reach_wellFormed _ _ w3.1 h4
  obtain ⟨f5, f6, f7, h5⟩ := reach_stage4 e4 e5 e6 e7 w4.1
  have w5 := reach_wellFormed _ _ w4.1 h5
  obtain ⟨g6, g7, h6⟩ := reach_stage5 f5 f6 f7 w5.1
  have w6 := reach_wellFormed _ _ w5.1 h6
  have hall : Relation.ReflTransGen LegalMove B [[1, 2, 3], [4, 5, 6], [g6, g7, 0]] :=
    h0.trans (h1.trans (h2.trans (h3.trans (h4.trans (h5.trans h6)))))
  have hsol : isSolvable [[1, 2, 3], [4, 5, 6], [g6, g7, 0]] = true := by
    rw [w6.2, w5.2, w4.2, w3.2, w2.2, w1.2, w0.2, hs]
  have hp : [1, 2, 3, 4, 5, 6, g6, g7, 0].Perm [0, 1, 2, 3, 4, 5, 6, 7, 8] := w6.1.2.2
  have h7 : (7 : Int) ∈ [1, 2, 3, 4, 5, 6, g6, g7, 0] := hp.mem_iff.mpr (by decide)
  have h8 : (8 : Int) ∈ [1, 2, 3, 4, 5, 6, g6, g7, 0] := hp.mem_iff.mpr (by decide)
  simp only [List.mem_cons, List.mem_singleton, List.not_mem_nil, or_false] at h7 h8
  have h7b : g6 = 7 ∨ g7 = 7 := by omega
  have h8b : g6 = 8 ∨ g7 = 8 := by omega
  rcases h7b with rfl | rfl
  · rcases h8b with h | rfl
    · exact absurd h (by decide)
    · exact hall
  · rcases h8b with rfl | h
    · exact absurd hsol (by decide)
    · exact absurd h (by decide)

/-- C3: a well-formed board is solvable, in the sense of `isSolvable`, exactly when it can be
reached from the solved board by finitely many legal moves. -/
theorem C3_isSolvable_iff_reachable (board : Board) (hw : WellFormed board) :
    isSolvable board = true ↔ Relation.ReflTransGen LegalMove solvedBoard board := by
  constructor
  · intro hs
    exact reach_symm board solvedBoard hw (reach_solved_of_solvable board hw hs)
  · intro h
    have hsol := (reach_wellFormed solvedBoard board (by decide) h).2
    rw [hsol]
    decide

/-- Witness for C3: the board one move away from the solved board. -/
theorem C3_isSolvable_iff_reachable_witness :
    WellFormed [[1, 2, 3], [4, 5, 6], [7, 0, 8]] ∧
      Relation.ReflTransGen LegalMove solvedBoard [[1, 2, 3], [4, 5, 6], [7, 0, 8]] :=
  ⟨by decide,
    (C3_isSolvable_iff_reachable [[1, 2, 3], [4, 5, 6], [7, 0, 8]] (by decide)).mp (by decide)⟩

/-! ## The session: handlers and events -/

theorem solvedEffect_puzzle (s : GameState) : (solvedEffect s).puzzle = s.puzzle := by
  rw [solvedEffect_eq]

theorem solvedEffect_dragging (s : GameState) : (solvedEffect s).dragging = s.dragging := by
  rw [solvedEffect_eq]

theorem solvedEffect_moves (s : GameState) : (solvedEffect s).moves = s.moves := by
  rw [solvedEffect_eq]

theorem handleTileClick_some (s s1 : GameState) (row col : Nat)
    (h : handleTileClick s row col = .ok (some s1)) :
    s.solved = false ∧ s.animating = false ∧ canMove s.puzzle row col = .ok true ∧
      ∃ N, swapWithEmpty s.puzzle row col = .ok N ∧
        s1 = { s with animating := true, puzzle := N, moves := s.moves + 1,
                      timers := s.timers + 1 } := by
  unfold handleTileClick at h
  split at h
  · exact absurd h (by simp)
  · rename_i hsa
    simp only [Bool.or_eq_true, not_or, Bool.not_eq_true] at hsa
    split at h
    · exact absurd h (by simp)
    · split at h
      · exact absurd h (by simp)
      · split at h
        · exact absurd h (by simp)
        · exact absurd h (by simp)
        · rename_i hm
          split at h
          · exact absurd h (by simp)
          · rename_i N hN
            injection h with h
            injection h with h
            exact ⟨hsa.1, hsa.2, hm, N, hN, h.symm⟩

theorem swapCells_eq_swapWithEmpty (board : Board) (qr qc row col : Nat)
    (hf : findEmptyTile board = .ok (some ⟨qr, qc⟩)) :
    swapCells board row col qr qc = swapWithEmpty board row col := by
  rw [swapWithEmpty_eq board qr qc row col hf]
  unfold swapCells
  simp only [List.map_id_fun', id_eq]

theorem generatePuzzle_wellFormed (draws : Nat → Nat) (fuel : Nat) (board : Board)
    (hd : ValidDraws draws) (h : generatePuzzle draws fuel = some board) :
    WellFormed board ∧ isSolvable board = true := by
  obtain ⟨a, hb, hs⟩ := generatePuzzleLoop_some draws fuel 0 board h
  exact ⟨hb ▸ generateAttempt_wellFormed draws hd a, hs⟩

theorem tileClick_invariant (s s1 : GameState) (row col : Nat) (hr : row < 3) (hc : col < 3)
    (hw : WellFormed s.puzzle) (h : tileClick s row col = .ok s1) :
    WellFormed s1.puzzle ∧ s1.dragging = s.dragging := by
  unfold tileClick at h
  split at h
  · exact absurd h (by simp)
  · injection h with h
    subst h
    exact ⟨hw, rfl⟩
  · rename_i s2 h2
    injection h with h
    subst h
    obtain ⟨_, _, hm, N, hN, rfl⟩ := handleTileClick_some s s2 row col h2
    obtain ⟨N2, hN2, hw2, _⟩ := swapWithEmpty_preserves s.puzzle hw row col hr hc hm
    rw [hN] at hN2
    injection hN2 with hN2
    subst hN2
    rw [solvedEffect_puzzle, solvedEffect_dragging]
    exact ⟨hw2, rfl⟩

theorem handleKeyDown_eq (s : GameState) (key : Key) (s1 : GameState)
    (h : handleKeyDown s key = .ok (some s1)) :
    ∃ row col, row < 3 ∧ col < 3 ∧ handleTileClick s row col = .ok (some s1) := by
  unfold handleKeyDown at h
  split at h
  · exact absurd h (by simp)
  · split at h
    · exact absurd h (by simp)
    · exact absurd h (by simp)
    · split at h
      · exact absurd h (by simp)
      · rename_i targetRow targetCol _
        split at h
        · rename_i hb
          exact ⟨targetRow.toNat, targetCol.toNat, by omega, by omega, h⟩
        · exact absurd h (by simp)

theorem keyPress_invariant (s s1 : GameState) (key : Key)
    (hw : WellFormed s.puzzle) (h : keyPress s key = .ok s1) :
    WellFormed s1.puzzle ∧ s1.dragging = s.dragging := by
  unfold keyPress at h
  split at h
  · exact absurd h (by simp)
  · injection h with h
    subst h
    exact ⟨hw, rfl⟩
  · rename_i s2 h2
    obtain ⟨row, col, hr, hc, h3⟩ := handleKeyDown_eq s key s2 h2
    apply tileClick_invariant s s1 row col hr hc hw
    unfold tileClick
    rw [h3]
    exact h

theorem handleDrop_cases (s s1 : GameState) (row col : Nat) (b : Bool)
    (h : handleDrop s row col = .ok (s1, b)) :
    (b = false ∧ s1.puzzle = s.puzzle ∧ s1.moves = s.moves ∧ s1.solved = s.solved ∧
        s1.animating = s.animating ∧ s1.timers = s.timers ∧
        (s1.dragging = s.dragging ∨ s1.dragging = none)) ∨
      (b = true ∧ ∃ d N, s.dragging = some d ∧ readCell s.puzzle row col = .ok (some 0) ∧
        canMove s.puzzle d.row d.col = .ok true ∧
        swapCells s.puzzle d.row d.col row col = .ok N ∧
        s1 = { s with dragOver := none, animating := true, puzzle := N,
                      moves := s.moves + 1, timers := s.timers + 1, dragging := none }) := by
  unfold handleDrop at h
  split at h
  · injection h with h
    injection h with h1 h2
    subst h1
    exact Or.inl ⟨h2.symm, rfl, rfl, rfl, rfl, rfl, Or.inl rfl⟩
  · rename_i d hd
    split at h
    · exact absurd h (by simp)
    · rename_i cell hcell
      split at h
      · injection h with h
        injection h with h1 h2
        subst h1
        exact Or.inl ⟨h2.symm, rfl, rfl, rfl, rfl, rfl, Or.inl rfl⟩
      · rename_i hz
        simp only [ne_eq, not_not] at hz
        subst hz
        split at h
        · exact absurd h (by simp)
        · injection h with h
          injection h with h1 h2
          subst h1
          exact Or.inl ⟨h2.symm, rfl, rfl, rfl, rfl, rfl, Or.inr rfl⟩
        · rename_i hm
          split at h
          · exact absurd h (by simp)
          · rename_i N hN
            injection h with h
            injection h with h1 h2
            subst h1
            exact Or.inr ⟨h2.symm, d, N, hd, hcell, hm, hN, rfl⟩

theorem dropTile_invariant (s s1 : GameState) (row col : Nat)
    (hw : WellFormed s.puzzle) (hd : ∀ d, s.dragging = some d → d.row < 3 ∧ d.col < 3)
    (h : dropTile s row col = .ok s1) :
    WellFormed s1.puzzle ∧ ∀ d, s1.dragging = some d → d.row < 3 ∧ d.col < 3 := by
  unfold dropTile at h
  split at h
  · exact absurd h (by simp)
  · rename_i s2 heq
    injection h with h
    subst h
    rcases handleDrop_cases s s2 row col true heq with ⟨hb, _⟩ | ⟨_, d, N, hdd, hcell, hm, hN, rfl⟩
    · exact absurd hb (by simp)
    · rw [solvedEffect_puzzle, solvedEffect_dragging]
      have hf := findEmptyTile_of_blank s.puzzle hw row col hcell
      rw [swapCells_eq_swapWithEmpty s.puzzle row col d.row d.col hf] at hN
      obtain ⟨hr, hc⟩ := hd d hdd
      obtain ⟨N2, hN2, hw2, _⟩ := swapWithEmpty_preserves s.puzzle hw d.row d.col hr hc hm
      rw [hN] at hN2
      injection hN2 with hN2
      subst hN2
      exact ⟨hw2, fun d h => absurd h (by simp)⟩
  · rename_i s2 heq
    injection h with h
    subst h
    rcases handleDrop_cases s s2 row col false heq with ⟨_, hp, _, _, _, _, hdr⟩ | ⟨hb, _⟩
    · rw [hp]
      refine ⟨hw, ?_⟩
      rcases hdr with hdr | hdr
      · rw [hdr]; exact hd
      · rw [hdr]; exact fun d h => absurd h (by simp)
    · exact absurd hb (by simp)

theorem handleDragStart_cases (s s1 : GameState) (row col : Nat)
    (h : handleDragStart s row col = .ok (some s1)) :
    s.solved = false ∧ s.animating = false ∧
      ∃ value, s1 = { s with dragging := some ⟨row, col, value⟩ } := by
  unfold handleDragStart at h
  split at h
  · exact absurd h (by simp)
  · rename_i hsa
    simp only [Bool.or_eq_true, not_or, Bool.not_eq_true] at hsa
    split at h
    · exact absurd h (by simp)
    · split at h
      · exact absurd h (by simp)
      · split at h
        · exact absurd h (by simp)
        · exact absurd h (by simp)
        · split at h
          · exact absurd h (by simp)
          · injection h with h
            injection h with h
            exact ⟨hsa.1, hsa.2, _, h.symm⟩

theorem handleDragOver_cases (s s1 : GameState) (row col : Nat)
    (h : handleDragOver s row col = .ok (some s1)) :
    s1 = { s with dragOver := some ⟨row, col⟩ } := by
  unfold handleDragOver at h
  split at h
  · exact absurd h (by simp)
  · split at h
    · injection h with h
      injection h with h
      exact h.symm
    · exact absurd h (by simp)

theorem restart_cases (s s1 : GameState) (draws : Nat → Nat) (fuel : Nat)
    (h : restart s draws fuel = some s1) :
    ∃ puzzle, generatePuzzle draws fuel = some puzzle ∧
      s1 = solvedEffect { s with puzzle := puzzle, moves := 0, solved := false,
                                 animating := false, dragging := none, dragOver := none } := by
  unfold restart handleRestart at h
  cases hg : generatePuzzle draws fuel with
  | none => rw [hg] at h; exact absurd h (by simp)
  | some puzzle =>
    rw [hg] at h
    simp only [Option.map_some', Option.some.injEq] at h
    exact ⟨puzzle, rfl, h.symm⟩

/-- The invariant of a session: the board is well-formed and a drag in progress started on
a cell of the grid. -/
theorem step_invariant (s s1 : GameState) (e : Event) (he : e.Valid)
    (hw : WellFormed s.puzzle) (hd : ∀ d, s.dragging = some d → d.row < 3 ∧ d.col < 3)
    (h : step s e = some s1) :
    WellFormed s1.puzzle ∧ ∀ d, s1.dragging = some d → d.row < 3 ∧ d.col < 3 := by
  cases e with
  | click row col =>
    simp only [step] at h
    cases hc : tileClick s row col with
    | error e => rw [hc] at h; exact absurd h (by simp [Except.toOption])
    | ok s2 =>
      rw [hc] at h
      simp only [Except.toOption, Option.some.injEq] at h
      subst h
      obtain ⟨h1, h2⟩ := tileClick_invariant s s2 row col he.1 he.2 hw hc
      exact ⟨h1, h2 ▸ hd⟩
  | key k =>
    simp only [step] at h
    cases hc : keyPress s k with
    | error e => rw [hc] at h; exact absurd h (by simp [Except.toOption])
    | ok s2 =>
      rw [hc] at h
      simp only [Except.toOption, Option.some.injEq] at h
      subst h
      obtain ⟨h1, h2⟩ := keyPress_invariant s s2 k hw hc
      exact ⟨h1, h2 ▸ hd⟩
  | dragStart row col =>
    simp only [step] at h
    split at h
    · exact absurd h (by simp)
    · injection h with h
      subst h
      exact ⟨hw, hd⟩
    · rename_i s2 h2
      injection h with h
      subst h
      obtain ⟨_, _, value, rfl⟩ := handleDragStart_cases s s2 row col h2
      refine ⟨hw, ?_⟩
      intro d hdd
      simp only [Option.some.injEq] at hdd
      subst hdd
      exact he
  | dragOver row col =>
    simp only [step] at h
    split at h
    · exact absurd h (by simp)
    · injection h with h
      subst h
      exact ⟨hw, hd⟩
    · rename_i s2 h2
      injection h with h
      subst h
      rw [handleDragOver_cases s s2 row col h2]
      exact ⟨hw, hd⟩
  | dragLeave =>
    simp only [step, Option.some.injEq] at h
    subst h
    exact ⟨hw, hd⟩
  | drop row col =>
    simp only [step] at h
    cases hc : dropTile s row col with
    | error e => rw [hc] at h; exact absurd h (by simp [Except.toOption])
    | ok s2 =>
      rw [hc] at h
      simp only [Except.toOption, Option.some.injEq] at h
      subst h
      exact dropTile_invariant s s2 row col hw hd hc
  | dragEnd =>
    simp only [step, Option.some.injEq] at h
    subst h
    exact ⟨hw, fun d h => absurd h (by simp [handleDragEnd])⟩
  | release =>
    simp only [step, releaseLock] at h
    split at h
    · exact absurd h (by simp)
    · injection h with h
      subst h
      exact ⟨hw, hd⟩
  | restart draws fuel =>
    simp only [step] at h
    obtain ⟨puzzle, hg, rfl⟩ := restart_cases s s1 draws fuel h
    rw [solvedEffect_puzzle, solvedEffect_dragging]
    exact ⟨(generatePuzzle_wellFormed draws fuel puzzle he hg).1,
      fun d h => absurd h (by simp)⟩

theorem run_invariant (events : List Event) (s s1 : GameState)
    (he : ∀ e ∈ events, e.Valid) (hw : WellFormed s.puzzle)
    (hd : ∀ d, s.dragging = some d → d.row < 3 ∧ d.col < 3)
    (h : run s events = some s1) :
    WellFormed s1.puzzle ∧ ∀ d, s1.dragging = some d → d.row < 3 ∧ d.col < 3 := by
  induction events generalizing s with
  | nil =>
    simp only [run, Option.some.injEq] at h
    subst h
    exact ⟨hw, hd⟩
  | cons e rest ih =>
    simp only [run] at h
    cases hs : step s e with
    | none => rw [hs] at h; exact absurd h (by simp)
    | some s2 =>
      rw [hs] at h
      obtain ⟨h1, h2⟩ := step_invariant s s2 e (he e (List.mem_cons_self _ _)) hw hd hs
      exact ih s2 (fun e1 h3 => he e1 (List.mem_cons_of_mem _ h3)) h1 h2 h

theorem mount_invariant (draws : Nat → Nat) (fuel : Nat) (s : GameState)
    (hd : ValidDraws draws) (h : mount draws fuel = some s) :
    WellFormed s.puzzle ∧ isSolvable s.puzzle = true ∧ s.dragging = none := by
  unfold mount at h
  cases hg : generatePuzzle draws fuel with
  | none => rw [hg] at h; exact absurd h (by simp)
  | some puzzle =>
    rw [hg] at h
    simp only [Option.some.injEq] at h
    subst h
    rw [solvedEffect_puzzle, solvedEffect_dragging]
    obtain ⟨h1, h2⟩ := generatePuzzle_wellFormed draws fuel puzzle hd hg
    exact ⟨h1, h2, rfl⟩

theorem reachable_wellFormed (s : GameState) (h : Reachable s) : WellFormed s.puzzle := by
  obtain ⟨draws, fuel, s0, events, hd, hm, he, hr⟩ := h
  obtain ⟨h1, _, h3⟩ := mount_invariant draws fuel s0 hd hm
  exact (run_invariant events s0 s he h1 (fun d h => absurd h (by simp [h3])) hr).1

theorem blank_unique (board : Board) (hw : WellFormed board) (r c x y : Nat)
    (hq : readCell board r c = .ok (some 0)) (hx : readCell board x y = .ok (some 0)) :
    x = r ∧ y = c := by
  have h1 := findEmptyTile_of_blank board hw r c hq
  have h2 := findEmptyTile_of_blank board hw x y hx
  rw [h1] at h2
  injection h2 with h2
  injection h2 with h2
  injection h2 with h3 h4
  exact ⟨h3.symm, h4.symm⟩

theorem keyTarget_eq_arrowTarget (r c : Nat) (k : Key) (hk : k ≠ .other) :
    keyTarget ⟨r, c⟩ k = some (arrowTarget r c k) := by
  cases k <;> first | rfl | exact absurd rfl hk

theorem handleKeyDown_eq_click (s : GameState) (hs : s.solved = false)
    (ha : s.animating = false) (hw : WellFormed s.puzzle) (r c : Nat)
    (hq : readCell s.puzzle r c = .ok (some 0)) (k : Key) (hk : k ≠ .other) :
    handleKeyDown s k =
      if (arrowTarget r c k).1 ≥ 0 ∧ (arrowTarget r c k).1 < 3 ∧
          (arrowTarget r c k).2 ≥ 0 ∧ (arrowTarget r c k).2 < 3 then
        handleTileClick s (arrowTarget r c k).1.toNat (arrowTarget r c k).2.toNat
      else .ok none := by
  unfold handleKeyDown
  rw [findEmptyTile_of_blank s.puzzle hw r c hq]
  simp only [hs, ha, Bool.or_self, Bool.false_eq_true, if_false,
    keyTarget_eq_arrowTarget r c k hk]

/-- C13: in an unlocked, unsolved session with a well-formed board and blank at `(r, c)` an
arrow key selects `(r+1, c)` for Up, `(r-1, c)` for Down, `(r, c+1)` for Left and
`(r, c-1)` for Right; when the target is outside the grid the state is unchanged, otherwise
the key press has the result of a tile click on the target. -/
theorem C13_arrow_key_is_click_on_target (s : GameState) (hs : s.solved = false)
    (ha : s.animating = false) (hw : WellFormed s.puzzle) (r c : Nat)
    (hq : readCell s.puzzle r c = .ok (some 0)) (k : Key) (hk : k ≠ .other) :
    (¬(0 ≤ (arrowTarget r c k).1 ∧ (arrowTarget r c k).1 ≤ 2 ∧
          0 ≤ (arrowTarget r c k).2 ∧ (arrowTarget r c k).2 ≤ 2) →
        handleKeyDown s k = .ok none ∧ keyPress s k = .ok s) ∧
      (0 ≤ (arrowTarget r c k).1 ∧ (arrowTarget r c k).1 ≤ 2 ∧
          0 ≤ (arrowTarget r c k).2 ∧ (arrowTarget r c k).2 ≤ 2 →
        keyPress s k =
          tileClick s (arrowTarget r c k).1.toNat (arrowTarget r c k).2.toNat) := by
  have hkey := handleKeyDown_eq_click s hs ha hw r c hq k hk
  constructor
  · intro hout
    have h1 : handleKeyDown s k = .ok none := by
      rw [hkey, if_neg]
      intro hin
      exact hout ⟨hin.1, by omega, hin.2.2.1, by omega⟩
    refine ⟨h1, ?_⟩
    unfold keyPress
    rw [h1]
  · intro hin
    unfold keyPress tileClick
    rw [hkey, if_pos ⟨hin.1, by omega, hin.2.2.1, by omega⟩]

/-- Witness for C13: the key Left on `[[1,2,3],[4,5,6],[0,7,8]]` slides the tile 7. -/
theorem C13_arrow_key_is_click_on_target_witness :
    keyPress ⟨[[1, 2, 3], [4, 5, 6], [0, 7, 8]], 0, false, false, none, none, 0⟩ .arrowLeft
      = tileClick ⟨[[1, 2, 3], [4, 5, 6], [0, 7, 8]], 0, false, false, none, none, 0⟩ 2 1 :=
  (C13_arrow_key_is_click_on_target
    ⟨[[1, 2, 3], [4, 5, 6], [0, 7, 8]], 0, false, false, none, none, 0⟩ rfl rfl (by decide)
    2 0 (by decide) .arrowLeft (by decide)).2 (by decide)

theorem arrowTarget_adjacent (r c : Nat) (k : Key) (hk : k ≠ .other)
    (hin : 0 ≤ (arrowTarget r c k).1 ∧ 0 ≤ (arrowTarget r c k).2) :
    adjacent (arrowTarget r c k).1.toNat (arrowTarget r c k).2.toNat ⟨r, c⟩ = true := by
  rw [adjacent_iff_manhattan]
  cases k <;> simp only [arrowTarget] at hin ⊢ <;> first | omega | exact absurd rfl hk

/-- C20: on a well-formed board with blank at `(r, c)`, an arrow key whose target lies in
the grid points at a cell that is not the blank and for which `canMove` is true; in an
unlocked, unsolved session the key press is therefore an accepted move: the move count grows
by one and the lock is taken. -/
theorem C20_in_bounds_arrow_key_moves (board : Board) (hw : WellFormed board) (r c : Nat)
    (hq : readCell board r c = .ok (some 0)) (k : Key) (hk : k ≠ .other)
    (hin : 0 ≤ (arrowTarget r c k).1 ∧ (arrowTarget r c k).1 ≤ 2 ∧
      0 ≤ (arrowTarget r c k).2 ∧ (arrowTarget r c k).2 ≤ 2) :
    readCell board (arrowTarget r c k).1.toNat (arrowTarget r c k).2.toNat ≠ .ok (some 0) ∧
      canMove board (arrowTarget r c k).1.toNat (arrowTarget r c k).2.toNat = .ok true ∧
      ∀ s : GameState, s.puzzle = board → s.solved = false → s.animating = false →
        ∃ s1, keyPress s k = .ok s1 ∧ s1.moves = s.moves + 1 ∧ s1.animating = true ∧
          handleKeyDown s k ≠ .ok none := by
  have hadj := arrowTarget_adjacent r c k hk ⟨hin.1, hin.2.2.1⟩
  have hne := adjacent_ne _ _ _ _ hadj
  have hnb : readCell board (arrowTarget r c k).1.toNat (arrowTarget r c k).2.toNat
      ≠ .ok (some 0) := fun h => hne (blank_unique board hw r c _ _ hq h)
  have hm : canMove board (arrowTarget r c k).1.toNat (arrowTarget r c k).2.toNat
      = .ok true := by
    rw [canMove_eq_adjacent board hw r c hq, hadj]
  refine ⟨hnb, hm, ?_⟩
  intro s hsb hs ha
  subst hsb
  have hr : (arrowTarget r c k).1.toNat < 3 := by omega
  have hc : (arrowTarget r c k).2.toNat < 3 := by omega
  obtain ⟨N, hN, _, _⟩ := swapWithEmpty_preserves s.puzzle hw _ _ hr hc hm
  obtain ⟨cell, hcell⟩ := readCell_ok_of_wellFormed s.puzzle hw (arrowTarget r c k).1.toNat
    (arrowTarget r c k).2.toNat hr
  have hnb2 : cell ≠ some 0 := fun h => hnb (by rw [hcell, h])
  have hkey := handleKeyDown_eq_click s hs ha hw r c hq k hk
  rw [if_pos ⟨hin.1, by omega, hin.2.2.1, by omega⟩,
    handleTileClick_accept s _ _ N hs ha cell hcell hnb2 hm hN] at hkey
  have hpress : keyPress s k = .ok (solvedEffect { s with
      animating := true, puzzle := N, moves := s.moves + 1, timers := s.timers + 1 }) := by
    unfold keyPress
    rw [hkey]
  refine ⟨_, hpress, ?_, ?_, ?_⟩
  · rw [solvedEffect_moves]
  · rw [solvedEffect_eq]
  · rw [hkey]
    simp

/-- Witness for C20: the key Left on `[[1,2,3],[4,5,6],[0,7,8]]`. -/
theorem C20_in_bounds_arrow_key_moves_witness :
    canMove [[1, 2, 3], [4, 5, 6], [0, 7, 8]] 2 1 = .ok true :=
  (C20_in_bounds_arrow_key_moves [[1, 2, 3], [4, 5, 6], [0, 7, 8]] (by decide) 2 0 (by decide)
    .arrowLeft (by decide) (by decide)).2.1

theorem exampleDraws_valid : ValidDraws exampleDraws := by
  intro attempt k hk
  unfold exampleDraws
  rcases attempt with _ | a
  · interval_cases k <;> decide
  · rw [List.getD_eq_default _ _ (by simp; omega)]
    exact Nat.zero_le _

theorem identityDraws_valid : ValidDraws (fun n => 8 - n % 8) := by
  intro attempt k hk
  show 8 - (8 * attempt + k) % 8 ≤ 8 - k
  omega

/-- The guard `solved || animating` at the head of `handleTileClick`, `handleKeyDown` and
`handleDragStart` makes these handlers return at once. -/
theorem guarded_handlers_return (s : GameState) (h : s.solved = true ∨ s.animating = true)
    (row col : Nat) (k : Key) :
    handleTileClick s row col = .ok none ∧ handleKeyDown s k = .ok none ∧
      handleDragStart s row col = .ok none := by
  have hg : (s.solved || s.animating) = true := by
    rcases h with h | h <;> simp [h]
  unfold handleTileClick handleKeyDown handleDragStart
  simp [hg]

/-- C11 (code bug): `handleDrop` does not test `solved`.  The session starts on
`[[1,2,3],[4,5,6],[0,7,8]]`; a drag starts on the tile 7 at `(2, 1)`, two clicks (each
followed by its lock release) solve the puzzle, and the drop on the blank at `(2, 2)` then
moves the tile 8 although the state is solved: the board changes and the move count grows
from 2 to 3. -/
theorem C11_drop_moves_tile_while_solved :
    mount exampleDraws 1
      = some ⟨[[1, 2, 3], [4, 5, 6], [0, 7, 8]], 0, false, false, none, none, 0⟩ ∧
    run ⟨[[1, 2, 3], [4, 5, 6], [0, 7, 8]], 0, false, false, none, none, 0⟩
        [.dragStart 2 1, .click 2 1, .release, .click 2 2, .release]
      = some ⟨[[1, 2, 3], [4, 5, 6], [7, 8, 0]], 2, true, false, some ⟨2, 1, 7⟩, none, 0⟩ ∧
    Reachable ⟨[[1, 2, 3], [4, 5, 6], [7, 8, 0]], 2, true, false, some ⟨2, 1, 7⟩, none, 0⟩ ∧
    step ⟨[[1, 2, 3], [4, 5, 6], [7, 8, 0]], 2, true, false, some ⟨2, 1, 7⟩, none, 0⟩
        (.drop 2 2)
      = some ⟨[[1, 2, 3], [4, 5, 6], [7, 0, 8]], 3, true, true, none, none, 1⟩ := by
  refine ⟨by decide, by decide, ?_, by decide⟩
  refine ⟨exampleDraws, 1, ⟨[[1, 2, 3], [4, 5, 6], [0, 7, 8]], 0, false, false, none, none, 0⟩,
    [.dragStart 2 1, .click 2 1, .release, .click 2 2, .release],
    exampleDraws_valid, by decide, ?_, by decide⟩
  intro e he
  simp only [List.mem_cons, List.mem_singleton, List.not_mem_nil, or_false] at he
  rcases he with rfl | rfl | rfl | rfl | rfl <;> simp [Event.Valid]

/-- C12 (code bug): `handleDrop` does not test `animating`.  The session starts on
`[[1,2,3],[4,5,6],[0,7,8]]`; a drag starts on the tile 7 at `(2, 1)`, a click moves the
tile 4 and its lock is released; then a click on `(1, 1)` and, with the lock of that click
still held, a drop on the blank at `(1, 1)` are both applied: the move count grows from 1
to 3. -/
theorem C12_drop_moves_tile_while_locked :
    run ⟨[[1, 2, 3], [4, 5, 6], [0, 7, 8]], 0, false, false, none, none, 0⟩
        [.dragStart 2 1, .click 1 0, .release]
      = some ⟨[[1, 2, 3], [0, 5, 6], [4, 7, 8]], 1, false, false, some ⟨2, 1, 7⟩, none, 0⟩ ∧
    step ⟨[[1, 2, 3], [0, 5, 6], [4, 7, 8]], 1, false, false, some ⟨2, 1, 7⟩, none, 0⟩
        (.click 1 1)
      = some ⟨[[1, 2, 3], [5, 0, 6], [4, 7, 8]], 2, false, true, some ⟨2, 1, 7⟩, none, 1⟩ ∧
    Reachable ⟨[[1, 2, 3], [5, 0, 6], [4, 7, 8]], 2, false, true, some ⟨2, 1, 7⟩, none, 1⟩ ∧
    step ⟨[[1, 2, 3], [5, 0, 6], [4, 7, 8]], 2, false, true, some ⟨2, 1, 7⟩, none, 1⟩
        (.drop 1 1)
      = some ⟨[[1, 2, 3], [5, 7, 6], [4, 0, 8]], 3, false, true, none, none, 2⟩ := by
  refine ⟨by decide, by decide, ?_, by decide⟩
  refine ⟨exampleDraws, 1, ⟨[[1, 2, 3], [4, 5, 6], [0, 7, 8]], 0, false, false, none, none, 0⟩, [.dragStart 2 1, .click 1 0, .release, .click 1 1],
    exampleDraws_valid, by decide, ?_, by decide⟩
  intro e he
  simp only [List.mem_cons, List.mem_singleton, List.not_mem_nil, or_false] at he
  rcases he with rfl | rfl | rfl | rfl <;> simp [Event.Valid]

/-- After a restart the move count is 0, the lock is clear, no drag is in progress, the
board is well-formed and solvable, and the solved flag tells whether the generated board is
the solved board. -/
theorem restart_postcondition (s s1 : GameState) (draws : Nat → Nat) (fuel : Nat)
    (hd : ValidDraws draws) (h : restart s draws fuel = some s1) :
    s1.moves = 0 ∧ s1.animating = false ∧ s1.dragging = none ∧ s1.timers = s.timers ∧
      WellFormed s1.puzzle ∧ isSolvable s1.puzzle = true ∧
      generatePuzzle draws fuel = some s1.puzzle ∧
      (s1.solved = true ↔ s1.puzzle = solvedBoard) := by
  obtain ⟨puzzle, hg, rfl⟩ := restart_cases s s1 draws fuel h
  obtain ⟨hw, hsol⟩ := generatePuzzle_wellFormed draws fuel puzzle hd hg
  rw [solvedEffect_eq]
  refine ⟨rfl, rfl, rfl, rfl, hw, hsol, hg, ?_⟩
  show (false || isPuzzleSolved puzzle) = true ↔ puzzle = solvedBoard
  rw [Bool.false_or]
  exact isPuzzleSolved_iff_eq puzzle hw

/-- C14 (code bug): when every random draw selects `j = i` the shuffle leaves the numbers in
place, `generatePuzzle` returns the solved board, and the solved-check effect after the
restart sets the solved flag: the new session starts in the state Solved with 0 moves. -/
theorem C14_restart_into_solved_state (s : GameState) :
    ValidDraws (fun n => 8 - n % 8) ∧
      generatePuzzle (fun n => 8 - n % 8) 1 = some [[1, 2, 3], [4, 5, 6], [7, 8, 0]] ∧
      restart s (fun n => 8 - n % 8) 1
        = some ⟨[[1, 2, 3], [4, 5, 6], [7, 8, 0]], 0, true, false, none, none, s.timers⟩ := by
  refine ⟨identityDraws_valid, by decide, ?_⟩
  have hg : generatePuzzle (fun n => 8 - n % 8) 1 = some [[1, 2, 3], [4, 5, 6], [7, 8, 0]] := by
    decide
  unfold restart handleRestart
  rw [hg]
  simp only [Option.map_some', solvedEffect_eq]
  have hsol : isPuzzleSolved [[1, 2, 3], [4, 5, 6], [7, 8, 0]] = true := by decide
  simp only [hsol, Bool.or_true]

theorem tileClick_result (s s1 : GameState) (row col : Nat)
    (h : tileClick s row col = .ok s1) :
    s1 = s ∨ ∃ N, s.animating = false ∧
      s1 = solvedEffect { s with animating := true, puzzle := N, moves := s.moves + 1,
                                 timers := s.timers + 1 } := by
  unfold tileClick at h
  split at h
  · exact absurd h (by simp)
  · injection h with h
    exact Or.inl h.symm
  · rename_i s2 h2
    injection h with h
    obtain ⟨_, ha, _, N, _, rfl⟩ := handleTileClick_some s s2 row col h2
    exact Or.inr ⟨N, ha, h.symm⟩

theorem click_accepted (s s1 : GameState) (row col : Nat)
    (h : step s (.click row col) = some s1) (hm : s1.moves = s.moves + 1) :
    s1.animating = true ∧ s1.timers = s.timers + 1 := by
  simp only [step] at h
  cases hc : tileClick s row col with
  | error e => rw [hc] at h; exact absurd h (by simp [Except.toOption])
  | ok s2 =>
    rw [hc] at h
    simp only [Except.toOption, Option.some.injEq] at h
    subst h
    rcases tileClick_result s s2 row col hc with rfl | ⟨N, _, rfl⟩
    · omega
    · rw [solvedEffect_eq]
      exact ⟨rfl, rfl⟩

/-- C15 as stated fails: a move is accepted, the session is restarted before the release of
that move fires, and a move is accepted in the new session; the release scheduled before
the restart then fires and clears the lock of the new session, whose own release is still
pending. -/
theorem C15_counterexample :
    run ⟨[[1, 2, 3], [4, 5, 6], [0, 7, 8]], 0, false, false, none, none, 0⟩
        [.click 2 1, .restart exampleDraws 1, .click 2 1]
      = some ⟨[[1, 2, 3], [4, 5, 6], [7, 0, 8]], 1, false, true, none, none, 2⟩ ∧
    step ⟨[[1, 2, 3], [4, 5, 6], [7, 0, 8]], 1, false, true, none, none, 2⟩ .release
      = some ⟨[[1, 2, 3], [4, 5, 6], [7, 0, 8]], 1, false, false, none, none, 1⟩ := by
  constructor <;> decide

/-- C15 (amended): the release callbacks are not tied to a session.  When a move is
accepted, the session is restarted before the release of that move fires, and a move is
accepted in the new session, the lock is held; the release that fires next, scheduled before
the restart, clears the lock and leaves board, move count and solved flag unchanged, while
the release of the new move is still pending. -/
theorem C15_stale_release_clears_lock (s0 s1 s2 s3 : GameState) (r1 c1 r2 c2 : Nat)
    (draws : Nat → Nat) (fuel : Nat)
    (h1 : step s0 (.click r1 c1) = some s1) (hm1 : s1.moves = s0.moves + 1)
    (h2 : step s1 (.restart draws fuel) = some s2)
    (h3 : step s2 (.click r2 c2) = some s3) (hm3 : s3.moves = s2.moves + 1) :
    s3.animating = true ∧
      ∃ s4, step s3 .release = some s4 ∧ s4.animating = false ∧
        s4.timers = s0.timers + 1 ∧ s4.puzzle = s3.puzzle ∧ s4.moves = s3.moves ∧
        s4.solved = s3.solved := by
  obtain ⟨_, ht1⟩ := click_accepted s0 s1 r1 c1 h1 hm1
  obtain ⟨ha3, ht3⟩ := click_accepted s2 s3 r2 c2 h3 hm3
  simp only [step] at h2
  obtain ⟨puzzle, _, rfl⟩ := restart_cases s1 s2 draws fuel h2
  rw [solvedEffect_eq] at ht3
  simp only at ht3
  refine ⟨ha3, { s3 with animating := false, timers := s3.timers - 1 }, ?_, rfl, ?_, rfl, rfl,
    rfl⟩
  · simp only [step, releaseLock]
    rw [if_neg (by omega)]
  · show s3.timers - 1 = s0.timers + 1
    omega

/-- Witness for C15 (amended): the session of the counterexample. -/
theorem C15_stale_release_clears_lock_witness :
    ∃ s4, step ⟨[[1, 2, 3], [4, 5, 6], [7, 0, 8]], 1, false, true, none, none, 2⟩ .release
        = some s4 ∧ s4.animating = false ∧ s4.timers = 0 + 1 := by
  obtain ⟨_, s4, h4, h5, h6, _⟩ := C15_stale_release_clears_lock
    ⟨[[1, 2, 3], [4, 5, 6], [0, 7, 8]], 0, false, false, none, none, 0⟩
    ⟨[[1, 2, 3], [4, 5, 6], [7, 0, 8]], 1, false, true, none, none, 1⟩
    ⟨[[1, 2, 3], [4, 5, 6], [0, 7, 8]], 0, false, false, none, none, 1⟩
    ⟨[[1, 2, 3], [4, 5, 6], [7, 0, 8]], 1, false, true, none, none, 2⟩
    2 1 2 1 exampleDraws 1 (by decide) (by decide) (by decide) (by decide) (by decide)
  exact ⟨s4, h4, h5, h6⟩

/-- C16: in every state of a session the board has 3 rows of 3 cells, holds each of the
values `0..8` exactly once, and so has exactly one blank cell. -/
theorem C16_reachable_board_wellFormed (s : GameState) (h : Reachable s) :
    s.puzzle.length = 3 ∧ (∀ r ∈ s.puzzle, r.length = 3) ∧
      (∀ v : Int, 0 ≤ v → v ≤ 8 → s.puzzle.flatten.count v = 1) ∧
      s.puzzle.flatten.count 0 = 1 := by
  have hw := reachable_wellFormed s h
  exact ⟨hw.1, hw.2.1, wellFormed_count s.puzzle hw,
    wellFormed_count s.puzzle hw 0 (le_refl _) (by decide)⟩

/-- Witness for C16: the state after a click in a fresh session. -/
theorem C16_reachable_board_wellFormed_witness :
    Reachable ⟨[[1, 2, 3], [4, 5, 6], [7, 0, 8]], 1, false, true, none, none, 1⟩ ∧
      ([[1, 2, 3], [4, 5, 6], [7, 0, 8]] : Board).flatten.count 0 = 1 :=
  ⟨⟨exampleDraws, 1, ⟨[[1, 2, 3], [4, 5, 6], [0, 7, 8]], 0, false, false, none, none, 0⟩,
      [.click 2 1], exampleDraws_valid, by decide,
      fun e he => by
        simp only [List.mem_singleton] at he
        subst he
        exact ⟨by decide, by decide⟩,
      by decide⟩,
    (C16_reachable_board_wellFormed
      ⟨[[1, 2, 3], [4, 5, 6], [7, 0, 8]], 1, false, true, none, none, 1⟩
      ⟨exampleDraws, 1, ⟨[[1, 2, 3], [4, 5, 6], [0, 7, 8]], 0, false, false, none, none, 0⟩,
      [.click 2 1], exampleDraws_valid, by decide,
        fun e he => by
          simp only [List.mem_singleton] at he
          subst he
          exact ⟨by decide, by decide⟩,
        by decide⟩).2.2.2⟩

theorem getElem?_ne_zero (r : List Int) (h : (0 : Int) ∉ r) (i : Nat) : r[i]? ≠ some 0 :=
  fun hi => h (List.getElem?_mem hi)

/-- C17 as stated fails: on a 3x3 board without blank `canMove` returns `false`, it does
not fail. -/
theorem C17_counterexample :
    canMove [[1, 2, 3], [4, 5, 6], [7, 8, 9]] 0 0 = .ok false := by
  decide

/-- C17 (amended): on every board with at least three rows and no cell equal to 0,
`canMove` returns `false` for every position (the guard `if (!empty) return false`). -/
theorem C17_canMove_without_blank_is_false (board : Board) (row col : Nat)
    (h3 : 3 ≤ board.length) (hz : ∀ r ∈ board, (0 : Int) ∉ r) :
    findEmptyTile board = .ok none ∧ canMove board row col = .ok false := by
  have hf : findEmptyTile board = .ok none := by
    match board, h3 with
    | r0 :: r1 :: r2 :: rest, _ =>
      have h0 := getElem?_ne_zero r0 (hz r0 (by simp))
      have h1 := getElem?_ne_zero r1 (hz r1 (by simp))
      have h2 := getElem?_ne_zero r2 (hz r2 (by simp))
      simp [findEmptyTile, scanOrder, findEmptyTileFrom, readCell, h0, h1, h2]
  refine ⟨hf, ?_⟩
  unfold canMove
  rw [hf]

/-- Witness for C17 (amended). -/
theorem C17_canMove_without_blank_is_false_witness :
    canMove [[1, 2, 3], [4, 5, 6], [7, 8, 9]] 1 1 = .ok false :=
  (C17_canMove_without_blank_is_false [[1, 2, 3], [4, 5, 6], [7, 8, 9]] 1 1 (by decide)
    (by decide)).2

/-! ## Counting the solvable boards -/

theorem wellFormed_ofFlat (l : List Int) (hp : l.Perm [0, 1, 2, 3, 4, 5, 6, 7, 8]) :
    WellFormed (ofFlat l) := by
  obtain ⟨a, b, c, d, e, f, g, h, i, rfl⟩ := eq_of_length_nine l hp.length_eq
  exact ⟨rfl, by simp [ofFlat, sliceOf], hp⟩

theorem mem_wellFormedBoards (board : Board) :
    board ∈ wellFormedBoards ↔ WellFormed board := by
  unfold wellFormedBoards
  rw [List.mem_toFinset, List.mem_map]
  constructor
  · rintro ⟨l, hl, rfl⟩
    exact wellFormed_ofFlat l (List.mem_permutations.mp hl)
  · intro hw
    exact ⟨board.flatten, List.mem_permutations.mpr hw.2.2, ofFlat_flatten board hw⟩

theorem card_wellFormedBoards : wellFormedBoards.card = 362880 := by
  unfold wellFormedBoards
  rw [List.toFinset_card_of_nodup, List.length_map, List.length_permutations]
  · rfl
  · apply List.Nodup.map_on
    · intro l1 h1 l2 h2 he
      have e1 := flatten_ofFlat l1 (List.mem_permutations.mp h1).length_eq
      have e2 := flatten_ofFlat l2 (List.mem_permutations.mp h2).length_eq
      rw [← e1, ← e2, he]
    · exact List.nodup_permutations _ (by decide)

theorem swapOneTwo_involutive (v : Int) : swapOneTwo (swapOneTwo v) = v := by
  unfold swapOneTwo
  split_ifs <;> omega

theorem swapOneTwo_eq_zero (v : Int) : swapOneTwo v = 0 ↔ v = 0 := by
  unfold swapOneTwo
  split_ifs <;> omega

theorem exchangeTiles_involutive (board : Board) : exchangeTiles (exchangeTiles board) = board := by
  unfold exchangeTiles
  rw [List.map_map]
  have : ((fun r : List Int => r.map swapOneTwo) ∘ fun r => r.map swapOneTwo) = id := by
    funext r
    simp only [Function.comp_apply, List.map_map, id_eq]
    have h2 : (swapOneTwo ∘ swapOneTwo) = id := by
      funext v
      exact swapOneTwo_involutive v
    rw [h2, List.map_id]
  rw [this, List.map_id]

theorem flatten_exchangeTiles (board : Board) :
    (exchangeTiles board).flatten = board.flatten.map swapOneTwo := by
  unfold exchangeTiles
  rw [List.map_flatten]

theorem exchangeTiles_wellFormed (board : Board) (hw : WellFormed board) :
    WellFormed (exchangeTiles board) := by
  refine ⟨?_, ?_, ?_⟩
  · unfold exchangeTiles
    rw [List.length_map]
    exact hw.1
  · intro r hr
    unfold exchangeTiles at hr
    rw [List.mem_map] at hr
    obtain ⟨r0, hr0, rfl⟩ := hr
    rw [List.length_map]
    exact hw.2.1 r0 hr0
  · rw [flatten_exchangeTiles]
    exact (hw.2.2.map swapOneTwo).trans (by decide)

theorem countP_swapOneTwo_of_three_le (x : Int) (hx : 3 ≤ x) (t : List Int) :
    (t.map swapOneTwo).countP (fun y => decide (x > y))
      = t.countP (fun y => decide (x > y)) := by
  rw [List.countP_map]
  apply List.countP_congr
  intro y _
  simp only [Function.comp_apply, decide_eq_true_eq, swapOneTwo]
  split_ifs <;> omega

theorem countP_lt_one (t : List Int) (ht : ∀ y ∈ t, 1 ≤ y) :
    t.countP (fun y => decide ((1 : Int) > y)) = 0 := by
  rw [List.countP_eq_zero]
  intro y hy
  have := ht y hy
  simp only [decide_eq_true_eq]
  omega

theorem countP_lt_one_map (t : List Int) (ht : ∀ y ∈ t, 1 ≤ y) :
    (t.map swapOneTwo).countP (fun y => decide ((1 : Int) > y)) = 0 := by
  rw [List.countP_eq_zero]
  intro y hy
  rw [List.mem_map] at hy
  obtain ⟨z, hz, rfl⟩ := hy
  have := ht z hz
  simp only [decide_eq_true_eq, swapOneTwo]
  split_ifs <;> omega

theorem countP_lt_two (t : List Int) (ht : ∀ y ∈ t, 1 ≤ y) :
    t.countP (fun y => decide ((2 : Int) > y)) = t.count 1 := by
  rw [List.count, List.countP_congr]
  intro y hy
  have := ht y hy
  simp only [decide_eq_true_eq, beq_iff_eq]
  omega

theorem countP_lt_two_map (t : List Int) (ht : ∀ y ∈ t, 1 ≤ y) :
    (t.map swapOneTwo).countP (fun y => decide ((2 : Int) > y)) = t.count 2 := by
  rw [List.countP_map, List.count, List.countP_congr]
  intro y hy
  have := ht y hy
  simp only [Function.comp_apply, decide_eq_true_eq, beq_iff_eq, swapOneTwo]
  split_ifs <;> omega

/-- Exchanging the tiles 1 and 2 changes the number of inversions by one when both occur. -/
theorem invCount_map_swapOneTwo (l : List Int) (hnd : l.Nodup) (hl : ∀ x ∈ l, 1 ≤ x) :
    (invCount (l.map swapOneTwo) + l.count 1 * l.count 2) % 2 = invCount l % 2 := by
  induction l with
  | nil => rfl
  | cons x t ih =>
    have hnt := (List.nodup_cons.mp hnd).2
    have hxt := (List.nodup_cons.mp hnd).1
    have ht : ∀ y ∈ t, 1 ≤ y := fun y hy => hl y (List.mem_cons_of_mem _ hy)
    have hx := hl x (List.mem_cons_self _ _)
    have ih2 := ih hnt ht
    have c1 : t.count 1 ≤ 1 := List.nodup_iff_count_le_one.mp hnt 1
    have c2 : t.count 2 ≤ 1 := List.nodup_iff_count_le_one.mp hnt 2
    simp only [List.map_cons, invCount, List.count_cons, beq_iff_eq]
    by_cases h1 : x = 1
    · subst h1
      have z1 : t.count 1 = 0 := List.count_eq_zero.mpr hxt
      have e1 : swapOneTwo 1 = 2 := rfl
      rw [e1, countP_lt_two_map t ht, countP_lt_one t ht, z1]
      rw [z1] at ih2
      simp only [if_true, show ((1 : Int) = 2) = False from by simp, if_false] at ih2 ⊢
      have : t.count 2 = 0 ∨ t.count 2 = 1 := by omega
      rcases this with h | h <;> rw [h] at ih2 ⊢ <;> omega
    · by_cases h2 : x = 2
      · subst h2
        have z2 : t.count 2 = 0 := List.count_eq_zero.mpr hxt
        have e2 : swapOneTwo 2 = 1 := rfl
        rw [e2, countP_lt_one_map t ht, countP_lt_two t ht, z2]
        rw [z2] at ih2
        simp only [if_true, show ((2 : Int) = 1) = False from by simp, if_false] at ih2 ⊢
        have : t.count 1 = 0 ∨ t.count 1 = 1 := by omega
        rcases this with h | h <;> rw [h] at ih2 ⊢ <;> omega
      · have e3 : swapOneTwo x = x := by simp [swapOneTwo, h1, h2]
        have hx3 : 3 ≤ x := by omega
        rw [e3, countP_swapOneTwo_of_three_le x hx3 t]
        simp only [h1, h2, if_false, add_zero]
        omega

theorem filter_map_swapOneTwo (l : List Int) :
    (l.map swapOneTwo).filter (fun num => num != 0)
      = (l.filter (fun num => num != 0)).map swapOneTwo := by
  induction l with
  | nil => rfl
  | cons x t ih =>
    have hx := swapOneTwo_eq_zero x
    by_cases h : x = 0
    · subst h
      have h2 : swapOneTwo 0 = 0 := rfl
      simp [List.filter_cons, h2, ih]
    · have h2 : ¬ swapOneTwo x = 0 := fun e => h (hx.mp e)
      simp [List.filter_cons, h, h2, ih]

theorem isSolvable_exchangeTiles (board : Board) (hw : WellFormed board) :
    isSolvable (exchangeTiles board) = !isSolvable board := by
  have hp := hw.2.2
  have hnd : board.flatten.Nodup := hp.nodup_iff.mpr (by decide)
  have hl : ∀ x ∈ board.flatten.filter (fun num => num != 0), (1 : Int) ≤ x := by
    intro x hx
    rw [List.mem_filter] at hx
    have hmem := hp.mem_iff.mp hx.1
    have hne : x ≠ 0 := by simpa using hx.2
    simp only [List.mem_cons, List.mem_singleton, List.not_mem_nil, or_false] at hmem
    omega
  have h1 : (board.flatten.filter (fun num => num != 0)).count 1 = 1 := by
    rw [List.count_filter (by decide), hp.count_eq]
    decide
  have h2 : (board.flatten.filter (fun num => num != 0)).count 2 = 1 := by
    rw [List.count_filter (by decide), hp.count_eq]
    decide
  have key := invCount_map_swapOneTwo _ (hnd.filter _) hl
  rw [h1, h2] at key
  unfold isSolvable
  simp only [flatten_exchangeTiles, filter_map_swapOneTwo, countInversions_eq_invCount]
  cases h : invCount (board.flatten.filter (fun num => num != 0)) % 2 == 0
  · simp only [beq_eq_false_iff_ne, ne_eq, Bool.not_false, beq_iff_eq] at h ⊢
    omega
  · simp only [beq_iff_eq, Bool.not_true, beq_eq_false_iff_ne, ne_eq] at h ⊢
    omega

theorem card_solvable_eq_card_unsolvable :
    (wellFormedBoards.filter (fun b => isSolvable b = true)).card
      = (wellFormedBoards.filter (fun b => ¬ isSolvable b = true)).card := by
  apply Finset.card_bij (fun b _ => exchangeTiles b)
  · intro b hb
    rw [Finset.mem_filter, mem_wellFormedBoards] at hb ⊢
    refine ⟨exchangeTiles_wellFormed b hb.1, ?_⟩
    rw [isSolvable_exchangeTiles b hb.1, hb.2]
    simp
  · intro b1 _ b2 _ he
    have := congrArg exchangeTiles he
    rwa [exchangeTiles_involutive, exchangeTiles_involutive] at this
  · intro b hb
    rw [Finset.mem_filter, mem_wellFormedBoards] at hb
    refine ⟨exchangeTiles b, ?_, exchangeTiles_involutive b⟩
    rw [Finset.mem_filter, mem_wellFormedBoards]
    refine ⟨exchangeTiles_wellFormed b hb.1, ?_⟩
    rw [isSolvable_exchangeTiles b hb.1]
    simpa using hb.2

theorem card_filter_solvable_add (s : Finset Board) :
    (s.filter (fun b => isSolvable b = true)).card
      + (s.filter (fun b => ¬ isSolvable b = true)).card
      = s.card :=
  Finset.filter_card_add_filter_neg_card_eq_card _

theorem half_of_even (x : Nat) (h : x + x = 362880) : x = 181440 := by
  omega

/-- C19: the well-formed boards are the 9! = 362880 arrangements of `0..8` in a 3x3 grid,
and exactly 181440 of them, one half, satisfy `isSolvable`. -/
theorem C19_half_of_boards_solvable :
    (∀ board, board ∈ wellFormedBoards ↔ WellFormed board) ∧
      wellFormedBoards.card = 362880 ∧
      (wellFormedBoards.filter (fun b => isSolvable b = true)).card = 181440 := by
  refine ⟨mem_wellFormedBoards, card_wellFormedBoards, ?_⟩
  have h1 := card_filter_solvable_add wellFormedBoards
  rw [← card_solvable_eq_card_unsolvable, card_wellFormedBoards] at h1
  exact half_of_even _ h1

/-! ## The shuffle as a bijection -/

theorem shuffle_fold_eq_steps (m : Nat) (draw : Nat → Nat) (nums : List Int) :
    (List.range m).foldl (fun nums k => swapAt nums (m - k) (draw k)) nums
      = shuffleSteps m draw nums := by
  induction m generalizing draw nums with
  | zero => rfl
  | succ m ih =>
    rw [List.range_succ_eq_map, List.foldl_cons, List.foldl_map, shuffleSteps, ← ih]
    simp only [Nat.sub_zero, Nat.succ_eq_add_one, Nat.add_sub_add_right]

theorem shuffle_eq_steps (draw : Nat → Nat) (numbers : List Int) :
    shuffle draw numbers = shuffleSteps (numbers.length - 1) draw numbers := by
  unfold shuffle
  exact shuffle_fold_eq_steps _ draw numbers

theorem swapAt_getElem? (l : List Int) (i j : Nat) (hi : i < l.length) (hj : j < l.length)
    (k : Nat) :
    (swapAt l i j)[k]? = if k = j then l[i]? else if k = i then l[j]? else l[k]? := by
  unfold swapAt
  rw [List.getD_eq_getElem l 0 hi, List.getD_eq_getElem l 0 hj]
  simp only [List.getElem?_set, List.length_set]
  by_cases h1 : j = k
  · subst h1
    simp [hj, List.getElem?_eq_getElem hi]
  · by_cases h2 : i = k
    · subst h2
      simp [h1, Ne.symm h1, hi, List.getElem?_eq_getElem hj]
    · simp [h1, h2, Ne.symm h1, Ne.symm h2]

theorem shuffleSteps_length (n : Nat) (draw : Nat → Nat) (nums : List Int) :
    (shuffleSteps n draw nums).length = nums.length := by
  induction n generalizing draw nums with
  | zero => rfl
  | succ n ih => rw [shuffleSteps, ih, swapAt_length]

theorem shuffleSteps_congr (n : Nat) (d1 d2 : Nat → Nat) (nums : List Int)
    (h : ∀ k < n, d1 k = d2 k) : shuffleSteps n d1 nums = shuffleSteps n d2 nums := by
  induction n generalizing d1 d2 nums with
  | zero => rfl
  | succ n ih =>
    rw [shuffleSteps, shuffleSteps, h 0 (Nat.succ_pos n)]
    exact ih _ _ _ (fun k hk => h (k + 1) (by omega))

theorem shuffleSteps_above (n : Nat) (draw : Nat → Nat) (nums : List Int)
    (hn : n < nums.length) (hd : ∀ k < n, draw k ≤ n - k) (i : Nat) (hi : n < i) :
    (shuffleSteps n draw nums)[i]? = nums[i]? := by
  induction n generalizing draw nums with
  | zero => rfl
  | succ n ih =>
    have h0 := hd 0 (Nat.succ_pos n)
    rw [shuffleSteps, ih _ _ (by rw [swapAt_length]; omega)
      (fun k hk => by have := hd (k + 1) (by omega); omega) (by omega),
      swapAt_getElem? nums (n + 1) (draw 0) hn (by omega)]
    rw [if_neg (by omega), if_neg (by omega)]

theorem shuffleSteps_last (n : Nat) (draw : Nat → Nat) (nums : List Int)
    (hn : n + 1 < nums.length) (hd : ∀ k < n + 1, draw k ≤ n + 1 - k) :
    (shuffleSteps (n + 1) draw nums)[n + 1]? = nums[draw 0]? := by
  have h0 := hd 0 (Nat.succ_pos n)
  rw [shuffleSteps, shuffleSteps_above n _ _ (by rw [swapAt_length]; omega)
      (fun k hk => by have := hd (k + 1) (by omega); omega) (n + 1) (by omega),
    swapAt_getElem? nums (n + 1) (draw 0) hn (by omega)]
  by_cases h : n + 1 = draw 0
  · rw [if_pos h, h]
  · rw [if_neg h, if_pos rfl]

theorem shuffleSteps_injective (n : Nat) (nums : List Int) (hnd : nums.Nodup)
    (hn : n < nums.length) (d1 d2 : Nat → Nat) (h1 : ∀ k < n, d1 k ≤ n - k)
    (h2 : ∀ k < n, d2 k ≤ n - k)
    (he : shuffleSteps n d1 nums = shuffleSteps n d2 nums) : ∀ k < n, d1 k = d2 k := by
  induction n generalizing d1 d2 nums with
  | zero => intro k hk; omega
  | succ n ih =>
    have b1 := h1 0 (Nat.succ_pos n)
    have b2 := h2 0 (Nat.succ_pos n)
    have e0 : d1 0 = d2 0 := by
      have hl := congrArg (fun l : List Int => l[n + 1]?) he
      simp only at hl
      rw [shuffleSteps_last n d1 nums hn h1, shuffleSteps_last n d2 nums hn h2] at hl
      exact List.getElem?_inj (by omega) hnd hl
    rw [shuffleSteps, shuffleSteps, e0] at he
    have hrec := ih (swapAt nums (n + 1) (d2 0))
      ((swapAt_perm nums _ _ hn (by omega)).nodup_iff.mpr hnd)
      (by rw [swapAt_length]; omega) (fun k => d1 (k + 1)) (fun k => d2 (k + 1))
      (fun k hk => by
        have := h1 (k + 1) (by omega)
        show d1 (k + 1) ≤ n - k
        omega)
      (fun k hk => by
        have := h2 (k + 1) (by omega)
        show d2 (k + 1) ≤ n - k
        omega) he
    intro k hk
    rcases k with _ | k
    · exact e0
    · exact hrec k (by omega)

theorem eq_of_perm_of_agree_above_zero (l nums : List Int) (hnd : nums.Nodup)
    (hn : 0 < nums.length) (hp : l.Perm nums) (ha : ∀ i, 0 < i → l[i]? = nums[i]?) :
    l = nums := by
  have hl : l.Nodup := hp.nodup_iff.mpr hnd
  have hlen := hp.length_eq
  cases l with
  | nil => simp at hlen; omega
  | cons a t =>
    cases nums with
    | nil => simp at hn
    | cons b t2 =>
      have ht : t = t2 := by
        apply List.ext_getElem?
        intro i
        have := ha (i + 1) (Nat.succ_pos i)
        simpa using this
      subst ht
      have hmem : a ∈ b :: t := hp.mem_iff.mp (List.mem_cons_self _ _)
      rcases List.mem_cons.mp hmem with h | h
      · rw [h]
      · exact absurd h (List.nodup_cons.mp hl).1

theorem shuffleSteps_surjective (n : Nat) (nums l : List Int) (hnd : nums.Nodup)
    (hn : n < nums.length) (hp : l.Perm nums) (ha : ∀ i, n < i → l[i]? = nums[i]?) :
    ∃ draw : Nat → Nat, (∀ k < n, draw k ≤ n - k) ∧ shuffleSteps n draw nums = l := by
  induction n generalizing nums with
  | zero =>
    exact ⟨fun _ => 0, fun k hk => absurd hk (Nat.not_lt_zero k),
      (eq_of_perm_of_agree_above_zero l nums hnd hn hp ha).symm⟩
  | succ n ih =>
    have hl : l.Nodup := hp.nodup_iff.mpr hnd
    have hlen := hp.length_eq
    have hlast : n + 1 < l.length := by omega
    have hx : l[n + 1] ∈ nums := hp.mem_iff.mp (List.getElem_mem hlast)
    obtain ⟨j, hj, hjx⟩ := List.mem_iff_getElem.mp hx
    have hjle : j ≤ n + 1 := by
      by_contra hgt
      have h1 : l[j]? = nums[j]? := ha j (by omega)
      rw [List.getElem?_eq_getElem hj, hjx, ← List.getElem?_eq_getElem hlast] at h1
      have := List.getElem?_inj (by omega) hl h1
      omega
    have hperm := swapAt_perm nums (n + 1) j hn hj
    have hrec := ih (swapAt nums (n + 1) j) (hperm.nodup_iff.mpr hnd)
      (by rw [swapAt_length]; omega) (hp.trans hperm.symm)
      (by
        intro i hi
        rw [swapAt_getElem? nums (n + 1) j hn hj]
        by_cases h1 : i = j
        · have hj1 : j = n + 1 := by omega
          have hi1 : i = n + 1 := by omega
          subst hj1
          rw [if_pos h1, hi1, List.getElem?_eq_getElem hlast, List.getElem?_eq_getElem hn, hjx]
        · rw [if_neg h1]
          by_cases h2 : i = n + 1
          · subst h2
            rw [if_pos rfl, List.getElem?_eq_getElem hj, hjx, List.getElem?_eq_getElem hlast]
          · rw [if_neg h2]
            exact ha i (by omega))
    obtain ⟨draw, hb, hs⟩ := hrec
    refine ⟨fun k => if k = 0 then j else draw (k - 1), ?_, ?_⟩
    · intro k hk
      rcases k with _ | k
      · simpa using hjle
      · have := hb k (by omega)
        simp only [Nat.add_one_ne_zero, if_false, Nat.add_sub_cancel]
        omega
    · rw [shuffleSteps]
      simpa using hs

theorem drawsOf_bound (d : DrawVector) (k : Nat) (hk : k < 8) : drawsOf d k ≤ 8 - k := by
  unfold drawsOf
  rw [dif_pos hk]
  have := (d ⟨k, hk⟩).isLt
  simp only at this
  omega

theorem shuffleOf_eq_steps (d : DrawVector) :
    shuffleOf d = shuffleSteps 8 (drawsOf d) [1, 2, 3, 4, 5, 6, 7, 8, 0] := by
  unfold shuffleOf
  rw [shuffle_eq_steps]
  rfl

theorem shuffleOf_perm (d : DrawVector) :
    (shuffleOf d).Perm [1, 2, 3, 4, 5, 6, 7, 8, 0] := by
  unfold shuffleOf
  apply shuffle_perm
  intro k hk
  exact drawsOf_bound d k (by simpa using hk)

theorem shuffleOf_existsUnique (l : List Int) (hp : l.Perm [1, 2, 3, 4, 5, 6, 7, 8, 0]) :
    ∃! d : DrawVector, shuffleOf d = l := by
  have hnd : ([1, 2, 3, 4, 5, 6, 7, 8, 0] : List Int).Nodup := by decide
  have hlen : l.length = 9 := hp.length_eq
  obtain ⟨draw, hb, hs⟩ := shuffleSteps_surjective 8 [1, 2, 3, 4, 5, 6, 7, 8, 0] l hnd
    (by decide) hp (by
      intro i hi
      have h9 : ([1, 2, 3, 4, 5, 6, 7, 8, 0] : List Int).length = 9 := rfl
      rw [List.getElem?_eq_none (by omega), List.getElem?_eq_none (by omega)])
  refine ⟨fun k => ⟨draw k.val, by have := hb k.val k.isLt; omega⟩, ?_, ?_⟩
  · show shuffleOf _ = l
    rw [shuffleOf_eq_steps, ← hs]
    apply shuffleSteps_congr
    intro k hk
    unfold drawsOf
    rw [dif_pos hk]
  · intro d2 hd2
    have hinj := shuffleSteps_injective 8 [1, 2, 3, 4, 5, 6, 7, 8, 0] hnd (by decide)
      (drawsOf d2) draw (drawsOf_bound d2) hb (by rw [← shuffleOf_eq_steps, hd2, hs])
    funext k
    apply Fin.ext
    have := hinj k.val k.isLt
    unfold drawsOf at this
    rw [dif_pos k.isLt] at this
    exact this

theorem card_drawVector : Fintype.card DrawVector = 362880 := by
  rw [Fintype.card_pi]
  simp only [Fintype.card_fin]
  rfl

theorem generatePuzzle_of_drawVector (d : DrawVector)
    (hs : isSolvable (ofFlat (shuffleOf d)) = true) :
    ValidDraws (fun n => drawsOf d (n % 8)) ∧
      generatePuzzle (fun n => drawsOf d (n % 8)) 1 = some (ofFlat (shuffleOf d)) := by
  constructor
  · intro attempt k hk
    show drawsOf d ((8 * attempt + k) % 8) ≤ 8 - k
    have : (8 * attempt + k) % 8 = k := by omega
    rw [this]
    exact drawsOf_bound d k hk
  · have hsh : shuffle (fun k => drawsOf d ((8 * 0 + k) % 8)) [1, 2, 3, 4, 5, 6, 7, 8, 0]
        = shuffleOf d := by
      rw [shuffleOf_eq_steps, shuffle_eq_steps]
      apply shuffleSteps_congr
      intro k hk
      have hk8 : k < 8 := hk
      show drawsOf d ((8 * 0 + k) % 8) = drawsOf d k
      have : (8 * 0 + k) % 8 = k := by omega
      rw [this]
    have hg : generateAttempt (fun n => drawsOf d (n % 8)) 0 = ofFlat (shuffleOf d) := by
      unfold generateAttempt
      simp only [hsh]
      rfl
    unfold generatePuzzle
    rw [generatePuzzleLoop_succ, hg, if_pos hs]

/-- C18: one pass of the shuffle, as a function of the draw vector `(j_8, ..., j_1)` with
`0 ≤ j_i ≤ i`, maps the `9!` draw vectors one-to-one onto the `9!` permutations of
`[1,2,3,4,5,6,7,8,0]`; hence every well-formed solvable board is returned by
`generatePuzzle` for suitable draws. -/
theorem C18_shuffle_is_bijection :
    (∀ d : DrawVector, (shuffleOf d).Perm [1, 2, 3, 4, 5, 6, 7, 8, 0]) ∧
      (∀ l : List Int, l.Perm [1, 2, 3, 4, 5, 6, 7, 8, 0] →
        ∃! d : DrawVector, shuffleOf d = l) ∧
      Fintype.card DrawVector = 362880 ∧
      (List.permutations ([1, 2, 3, 4, 5, 6, 7, 8, 0] : List Int)).length = 362880 ∧
      (∀ board : Board, WellFormed board → isSolvable board = true →
        ∃ draws fuel, ValidDraws draws ∧ generatePuzzle draws fuel = some board) := by
  refine ⟨shuffleOf_perm, shuffleOf_existsUnique, card_drawVector, ?_, ?_⟩
  · rw [List.length_permutations]
    rfl
  · intro board hw hs
    obtain ⟨d, hd, _⟩ := shuffleOf_existsUnique board.flatten (hw.2.2.trans (by decide))
    have hb : ofFlat (shuffleOf d) = board := by
      rw [hd]
      exact ofFlat_flatten board hw
    obtain ⟨h1, h2⟩ := generatePuzzle_of_drawVector d (by rw [hb]; exact hs)
    rw [hb] at h2
    exact ⟨_, 1, h1, h2⟩
